import Mathlib

/-!
Shallow embedding of the Flight-Paths snow-route planner core
(src/brr.rs, src/graph.rs, src/plow.rs, src/data.rs, src/f64nn.rs)
and proofs about it.

Modelling conventions:
* node identifiers (Rust `NodeId = Cow<str>`) are `String`;
* edge weights are generic over a linearly ordered additive group `W`,
  mirroring the `Weight : Ord + Default + Add + Neg` parameter of
  `graph.rs`; the NaN-guarded floats `f64s` / `N64` of `brr.rs` and
  `plow.rs` are instantiated as `ℚ` in statements about those files, and
  concrete runs use small integer values on which IEEE `f64` arithmetic
  is exact;
* `IndexMap` / `Vec` become association lists / lists preserving insertion
  order; `HashMap` becomes a function to `Option`;
* the max-heap `PriorityQueue` is a list of item-priority pairs whose `pop`
  removes the leftmost entry of greatest priority (ties between distinct
  priorities never occur in the concrete runs below) and whose `push`
  replaces the priority of an already-present item;
* loops without a structural termination measure take fuel, and running out
  of fuel is an explicit outcome distinct from every result the Rust code
  can return.
-/

namespace FP

abbrev NId := String

/-- `brr::Edge` (and `plow::road::RoadEdge`, which has the same shape up to
the node-id representation), generic over the weight type. -/
structure BEdge (W : Type) where
  p1 : NId
  p2 : NId
  discriminator : Option NId
  directed : Bool
  length : W
  iidx : Nat
deriving DecidableEq

variable {W : Type}

/-- The tuple Rust `PartialEq for Edge` compares: `(p1, p2, discriminator,
iidx)` - `directed` and `length` do not participate in equality. -/
def BEdge.ekey (e : BEdge W) : NId × NId × Option NId × Nat :=
  (e.p1, e.p2, e.discriminator, e.iidx)

/-- Rust `Edge == Edge`. -/
def eeq (a b : BEdge W) : Bool := decide (a.ekey = b.ekey)

/-- Rust `Vec::contains` / `HashSet::contains` under the `Edge` equality. -/
def econtains (l : List (BEdge W)) (e : BEdge W) : Bool := l.any (eeq e)

/-- `Edge::is_cycle`. -/
def BEdge.is_cycle (e : BEdge W) : Bool := decide (e.p1 = e.p2)

/-- `Edge::is_similar`. -/
def is_similar (a b : BEdge W) : Bool :=
  decide (a.p1 = b.p1) && decide (a.p2 = b.p2) && decide (a.discriminator = b.discriminator)

/-- `Edge::dupe`: same edge with the duplication index bumped. -/
def dupe (e : BEdge W) : BEdge W := { e with iidx := e.iidx + 1 }

/-- `Edge::other`. -/
def other (e : BEdge W) (n : NId) : NId := if n = e.p1 then e.p2 else e.p1

/-- `data::Distance for (f64, f64)`: squared Euclidean distance. -/
def dist2 (a b : ℚ × ℚ) : ℚ := (a.1 - b.1) * (a.1 - b.1) + (a.2 - b.2) * (a.2 - b.2)

/-- `data::Node`. -/
structure Node where
  id : NId
  coordinates : ℚ × ℚ
deriving DecidableEq

/-- `data::Location`. -/
inductive Location where
  | coordinates (lon lat : ℚ)
  | node (id : NId)
deriving DecidableEq

/-- `RoadGraphNodes::locate` (src/data.rs:61-66): a coordinate location snaps
to the nearest node under squared Euclidean distance (Rust `min_by_key`
returns the first minimum); a node-form location is returned unconditionally,
with no membership check against the node list. -/
def locate (nodes : List Node) (l : Location) : Option NId :=
  match l with
  | .coordinates lon lat =>
      (nodes.argmin (fun nd => dist2 (lon, lat) nd.coordinates)).map Node.id
  | .node n => some n

/-- The located starting points in `construct_flight_paths` / `road::solve`:
`drones.iter().flat_map(|l| roads.nodes.locate(l)).collect()`. -/
def locate_all (nodes : List Node) (locs : List Location) : List NId :=
  locs.filterMap (locate nodes)

/-- `data::SnowStatusElement`. -/
structure SnowStatusElement where
  p1 : NId
  p2 : NId
  discriminator : Option NId
  depth : ℚ
deriving DecidableEq

abbrev SnowKey := NId × NId × Option NId

def snow_key (s : SnowStatusElement) : SnowKey := (s.p1, s.p2, s.discriminator)

/-- The in-place update `merge_snow_statuses` applies to one map entry
(src/brr.rs:289-293), with the entry freshly initialised to `0` by
`or_insert` when the key is new. -/
def snow_fold (acc depth : ℚ) : ℚ :=
  if acc ≤ 0 ∨ depth ≤ 0 then max acc depth else (acc + depth) / 2

/-- One `for` step of `merge_snow_statuses`: update the (first) entry of the
key in place, or append a fresh entry at the end (`IndexMap::entry`). -/
def snow_upsert (m : List (SnowKey × ℚ)) (k : SnowKey) (d : ℚ) : List (SnowKey × ℚ) :=
  match m with
  | [] => [(k, snow_fold 0 d)]
  | (k', v) :: rest =>
      if k' = k then (k', snow_fold v d) :: rest else (k', v) :: snow_upsert rest k d

/-- The `keyed` map built by `merge_snow_statuses`. -/
def merge_map (snows : List SnowStatusElement) : List (SnowKey × ℚ) :=
  snows.foldl (fun m s => snow_upsert m (snow_key s) s.depth) []

/-- `brr::merge_snow_statuses`. -/
def merge_snow_statuses (snows : List SnowStatusElement) : List SnowStatusElement :=
  (merge_map snows).map (fun p => ⟨p.1.1, p.1.2.1, p.1.2.2, p.2⟩)

/-- Association-list lookup (first matching key), the view through which the
`keyed` `IndexMap` is observed. -/
def alookup (m : List (SnowKey × ℚ)) (k : SnowKey) : Option ℚ :=
  match m with
  | [] => none
  | (k', v) :: rest => if k' = k then some v else alookup rest k

/-- The depth stream a given key sees, in input order. -/
def snow_depths (k : SnowKey) (snows : List SnowStatusElement) : List ℚ :=
  (snows.filter (fun s => decide (snow_key s = k))).map SnowStatusElement.depth

/-- `plow.rs` `initial_allocation`'s `closest` closure (line 47):
index of the first vehicle minimising squared Euclidean distance. -/
def closest_vehicle (vcoords : List (ℚ × ℚ)) (c : ℚ × ℚ) : Nat :=
  ((vcoords.enum.argmin (fun p => dist2 c p.2)).map Prod.fst).getD 0

/-- `HashSet::insert` on an allocation set. -/
def alloc_insert (l : List (BEdge ℚ)) (e : BEdge ℚ) : List (BEdge ℚ) :=
  if econtains l e then l else l ++ [e]

/-- The vehicle index chosen for an edge by `initial_allocation`
(src/plow.rs:52, identically src/brr.rs:400-404). -/
def chosen_vehicle (allocs : List (List (BEdge ℚ))) (lv1 lv2 : Nat) : Nat :=
  if lv1 = lv2 ∨ (allocs.getD lv2 []).length > (allocs.getD lv1 []).length then lv1 else lv2

/-- One edge of the `for e in snowy` loop of `initial_allocation`. -/
def alloc_step (pos : NId → ℚ × ℚ) (vcoords : List (ℚ × ℚ))
    (allocs : List (List (BEdge ℚ))) (e : BEdge ℚ) : List (List (BEdge ℚ)) :=
  let lv1 := closest_vehicle vcoords (pos e.p1)
  let lv2 := closest_vehicle vcoords (pos e.p2)
  let lv := chosen_vehicle allocs lv1 lv2
  allocs.set lv (alloc_insert (allocs.getD lv []) e)

/-- `PlowSolver::initial_allocation` (src/plow.rs:46-56): fold the snowy
edges, in iteration order, into initially-empty per-vehicle sets. -/
def initial_allocation (pos : NId → ℚ × ℚ) (vcoords : List (ℚ × ℚ))
    (snowy : List (BEdge ℚ)) : List (List (BEdge ℚ)) :=
  snowy.foldl (alloc_step pos vcoords) (vcoords.map (fun _ => []))

/-- `cycle_cost_compute!`, second arm (src/plow.rs:93-95): the per-vehicle
cost of a tour, slowing down on snowy allocated edges. -/
def cycle_cost (snowy alloc : List (BEdge ℚ)) (slowdown : ℚ) (sol : List (BEdge ℚ)) : ℚ :=
  (sol.map (fun e =>
    e.length * (if econtains snowy e && econtains alloc e then slowdown else (1 : ℚ)))).sum

/-- src/plow.rs:186-201, the `Evaluate improvements` block of
`PlowSolver::solve`: fold `cycle_cost` over the recycled per-vehicle
solutions into `(cost_improv_all, cost_improv_max)`, then compute
`value_improv` - which the code builds from `cost_next_all` and
`cost_next_max` (line 201), not from the improvement costs just computed.
Returns `(cost_improv_all, cost_improv_max, value_improv)`. -/
def improv_eval (weight_total weight_max slowdown : ℚ) (snowy : List (BEdge ℚ))
    (allocs sol_improv : List (List (BEdge ℚ)))
    (cost_next_all cost_next_max : ℚ) : ℚ × ℚ × ℚ :=
  let costs := (sol_improv.zip allocs).foldl
    (fun st p =>
      let cost := cycle_cost snowy p.2 slowdown p.1
      (st.1 + cost, if st.2 < cost then cost else st.2)) ((0 : ℚ), (0 : ℚ))
  (costs.1, costs.2, weight_total * cost_next_all + weight_max * cost_next_max)

/-! ### Lemmas about the snow merge -/

theorem alookup_snow_upsert (m : List (SnowKey × ℚ)) (ki k : SnowKey) (d : ℚ) :
    alookup (snow_upsert m ki d) k =
      if k = ki then some (snow_fold ((alookup m ki).getD 0) d) else alookup m k := by
  induction m with
  | nil =>
      by_cases h : k = ki
      · subst h; simp [snow_upsert, alookup]
      · have h' : ¬ki = k := fun hh => h hh.symm
        simp [snow_upsert, alookup, h, h']
  | cons p rest ih =>
      obtain ⟨k', v⟩ := p
      by_cases hki : k' = ki
      · subst hki
        by_cases hk : k = k'
        · subst hk; simp [snow_upsert, alookup]
        · have h' : ¬k' = k := fun hh => hk hh.symm
          simp [snow_upsert, alookup, h', hk]
      · by_cases hk : k' = k
        · subst hk
          have h2 : ¬k' = ki := hki
          simp [snow_upsert, alookup, hki, h2]
        · simp [snow_upsert, alookup, hki, hk, ih]

theorem merge_map_lookup_general (k : SnowKey) (snows : List SnowStatusElement) :
    ∀ m : List (SnowKey × ℚ),
      alookup (snows.foldl (fun m s => snow_upsert m (snow_key s) s.depth) m) k =
        match alookup m k with
        | some a => some ((snow_depths k snows).foldl snow_fold a)
        | none =>
            if snow_depths k snows = [] then none
            else some ((snow_depths k snows).foldl snow_fold 0) := by
  induction snows with
  | nil =>
      intro m
      cases h : alookup m k <;> simp [snow_depths, h]
  | cons s rest ih =>
      intro m
      rw [List.foldl_cons, ih, alookup_snow_upsert]
      by_cases hk : k = snow_key s
      · subst hk
        have hdep : snow_depths (snow_key s) (s :: rest) =
            s.depth :: snow_depths (snow_key s) rest := by
          simp [snow_depths]
        rw [if_pos rfl, hdep]
        cases h : alookup m (snow_key s) <;> simp [h]
      · have hk' : ¬snow_key s = k := fun hh => hk hh.symm
        have hdep : snow_depths k (s :: rest) = snow_depths k rest := by
          simp [snow_depths, hk']
        rw [if_neg hk, hdep]

/-- **C5.** `merge_snow_statuses` aggregates records per
`(p1, p2, discriminator)` key by a left fold whose accumulator starts at `0`:
`max(acc, depth)` when `acc ≤ 0` or `depth ≤ 0`, and `(acc + depth) / 2`
when both are positive; for a single key the depth stream `0, 0, 2, 4`
yields one output record with depth `3`. -/
theorem c5_merge_snow_left_fold :
    (∀ (snows : List SnowStatusElement) (k : SnowKey),
      alookup (merge_map snows) k =
        if snow_depths k snows = [] then none
        else some ((snow_depths k snows).foldl snow_fold 0)) ∧
    merge_snow_statuses
        [⟨"A", "B", none, 0⟩, ⟨"A", "B", none, 0⟩, ⟨"A", "B", none, 2⟩, ⟨"A", "B", none, 4⟩] =
      [⟨"A", "B", none, 3⟩] := by
  constructor
  · intro snows k
    have := merge_map_lookup_general k snows []
    simpa [merge_map, alookup] using this
  · norm_num [merge_snow_statuses, merge_map, snow_upsert, snow_fold, snow_key, max_def]

/-! ### Lemmas about location snapping -/

theorem locate_all_length_of_some (nodes : List Node) :
    ∀ locs : List Location, (∀ l ∈ locs, (locate nodes l).isSome) →
      (locate_all nodes locs).length = locs.length := by
  intro locs
  induction locs with
  | nil => intro _; rfl
  | cons l rest ih =>
      intro h
      have hl := h l (List.mem_cons_self l rest)
      obtain ⟨n, hn⟩ := Option.isSome_iff_exists.mp hl
      have hrest := ih (fun x hx => h x (List.mem_cons_of_mem l hx))
      simp [locate_all, List.filterMap_cons, hn] at hrest ⊢
      exact hrest

/-- **C10.** A node-form location is located unconditionally (no membership
check), so `locate` can only fail on a coordinate-form location with an
empty node list; with a non-empty node list the
"Failed to locate positions to the road graph" branch is unreachable. -/
theorem c10_locate_node_unconditional :
    (∀ (nodes : List Node) (n : NId), locate nodes (Location.node n) = some n) ∧
    (∀ (nodes : List Node) (lon lat : ℚ),
      (locate nodes (Location.coordinates lon lat) = none ↔ nodes = [])) ∧
    (∀ (nodes : List Node) (locs : List Location), nodes ≠ [] →
      (locate_all nodes locs).length = locs.length) := by
  refine ⟨fun nodes n => rfl, fun nodes lon lat => ?_, fun nodes locs h => ?_⟩
  · simp [locate, Option.map_eq_none', List.argmin_eq_none]
  · refine locate_all_length_of_some nodes locs (fun l _ => ?_)
    cases l with
    | node n => simp [locate]
    | coordinates lon lat =>
        cases harg : nodes.argmin (fun nd => dist2 (lon, lat) nd.coordinates) with
        | none => exact absurd (List.argmin_eq_none.mp harg) h
        | some nd => simp [locate, harg]

theorem c10_locate_node_unconditional_witness :
    locate [⟨"A", (0, 0)⟩] (Location.node "B") = some "B" ∧
    (locate_all [⟨"A", (0, 0)⟩] [Location.node "B", Location.coordinates 5 5]).length = 2 :=
  ⟨c10_locate_node_unconditional.1 [⟨"A", (0, 0)⟩] "B",
   c10_locate_node_unconditional.2.2 [⟨"A", (0, 0)⟩]
     [Location.node "B", Location.coordinates 5 5] (by simp)⟩

/-! ### C4: initial cluster allocation -/

def cexPos : NId → ℚ × ℚ := fun n => if n = "A" then (0, 0) else (4, 0)

def cexVehicles : List (ℚ × ℚ) := [(0, 0), (4, 0)]

def cexEdge : BEdge ℚ := ⟨"A", "B", none, false, 1, 0⟩

/-- **C4 counterexample.** Two vehicles, one snowy edge whose endpoints are
nearest to different vehicles (`lv1 = 0`, `lv2 = 1`), both allocation sets
empty (equal load): the code assigns the edge to `lv2`, not `lv1` as the
claim states. -/
theorem c4_tie_counterexample :
    closest_vehicle cexVehicles (cexPos "A") = 0 ∧
    closest_vehicle cexVehicles (cexPos "B") = 1 ∧
    initial_allocation cexPos cexVehicles [cexEdge] = [[], [cexEdge]] := by
  have hBA : ¬("B" : NId) = "A" := by decide
  refine ⟨?_, ?_, ?_⟩ <;>
    norm_num [closest_vehicle, initial_allocation, alloc_step, alloc_insert, chosen_vehicle,
      cexPos, cexVehicles, cexEdge, dist2, List.enum, List.enumFrom, List.argmin, List.argAux,
      econtains, hBA]

/-- **C4 amended.** If `lv1 = lv2` the edge goes to that vehicle; otherwise
it goes to whichever of `lv1, lv2` holds the smaller allocation set at that
moment, with an equal-load tie assigned to `lv2` (not `lv1`). -/
theorem c4_allocation_amended (allocs : List (List (BEdge ℚ))) (lv1 lv2 : Nat) :
    (lv1 = lv2 → chosen_vehicle allocs lv1 lv2 = lv1) ∧
    (lv1 ≠ lv2 →
      (chosen_vehicle allocs lv1 lv2 = lv1 ∨ chosen_vehicle allocs lv1 lv2 = lv2) ∧
      (allocs.getD (chosen_vehicle allocs lv1 lv2) []).length ≤
        (allocs.getD (if chosen_vehicle allocs lv1 lv2 = lv1 then lv2 else lv1) []).length ∧
      ((allocs.getD lv1 []).length = (allocs.getD lv2 []).length →
        chosen_vehicle allocs lv1 lv2 = lv2)) := by
  constructor
  · intro h
    unfold chosen_vehicle
    rw [if_pos (Or.inl h)]
  · intro hne
    by_cases hgt : (allocs.getD lv2 []).length > (allocs.getD lv1 []).length
    · have hch : chosen_vehicle allocs lv1 lv2 = lv1 := by
        unfold chosen_vehicle; rw [if_pos (Or.inr hgt)]
      refine ⟨Or.inl hch, ?_, ?_⟩
      · rw [hch, if_pos rfl]; omega
      · intro heq; omega
    · have hch : chosen_vehicle allocs lv1 lv2 = lv2 := by
        unfold chosen_vehicle; rw [if_neg (not_or.mpr ⟨hne, hgt⟩)]
      refine ⟨Or.inr hch, ?_, fun _ => hch⟩
      have hne' : ¬lv2 = lv1 := fun h => hne h.symm
      rw [hch, if_neg hne']
      omega

theorem c4_allocation_amended_witness :
    chosen_vehicle ([[], []] : List (List (BEdge ℚ))) 0 1 = 1 :=
  ((c4_allocation_amended [[], []] 0 1).2 (by omega)).2.2 (by rfl)

/-! ### C3: the annealing improvement evaluation -/

def cexSolNextEdge : BEdge ℚ := ⟨"A", "B", none, false, 5, 0⟩

def cexSolImprovEdge : BEdge ℚ := ⟨"A", "C", none, false, 2, 0⟩

/-- **C3.** With `weight_total = 1`, `weight_max = 0`, no snowy edges, a
previous solution of cost `5` and a recycled solution of cost `2`, the
`Evaluate improvements` block computes `cost_improv_all = cost_improv_max
= 2` but `value_improv = 5`: the code reuses `cost_next_all` and
`cost_next_max` (src/plow.rs:201) instead of the recycled solution's costs,
so `value_improv ≠ weight_total * cost_improv_all + weight_max *
cost_improv_max`. -/
theorem c3_value_improv_uses_next_costs :
    cycle_cost [] [] 2 [cexSolNextEdge] = 5 ∧
    improv_eval 1 0 2 [] [[]] [[cexSolImprovEdge]] 5 5 = (2, 2, 5) ∧
    ((1 : ℚ) * 2 + (0 : ℚ) * 2 = 2) ∧ (5 : ℚ) ≠ (2 : ℚ) := by
  refine ⟨?_, ?_, by norm_num, by norm_num⟩ <;>
    norm_num [cycle_cost, improv_eval, econtains, cexSolNextEdge, cexSolImprovEdge]

/-! ### The brr.rs graph and Eulerisation (`kreek`) -/

/-- `brr::Graph = IndexMap<NodeId, Vec<Rc<Edge>>>`: an insertion-ordered map
from node id to incidence list. -/
abbrev Graph (W : Type) := List (NId × List (BEdge W))

/-- `IndexMap::get` (first matching key), defaulting to the empty list for a
missing key. -/
def gget (g : Graph W) (n : NId) : List (BEdge W) :=
  match g with
  | [] => []
  | (k, es) :: rest => if k = n then es else gget rest n

def gkeys (g : Graph W) : List NId := g.map Prod.fst

/-- `g.get_mut(n).push(e)`: append an edge to the incidence list of `n`,
failing (as `Edge::add` does with `Nodes set missing`) when `n` is absent. -/
def gpush (g : Graph W) (n : NId) (e : BEdge W) : Option (Graph W) :=
  match g with
  | [] => none
  | (k, es) :: rest =>
      if k = n then some ((k, es ++ [e]) :: rest)
      else (gpush rest n e).map (fun r => (k, es) :: r)

/-- `Edge::add` (src/brr.rs:41-46): push onto `p1`'s list, then `p2`'s. -/
def eadd (e : BEdge W) (g : Graph W) : Option (Graph W) :=
  (gpush g e.p1 e).bind (fun g1 => gpush g1 e.p2 e)

/-- `brr::combined_degree` (src/brr.rs:97-103). -/
def combined_degree (D : Bool) (n : NId) (edges : List (BEdge W)) : ℤ :=
  if D then
    -|((edges.filter (fun e => e.directed && decide (e.p1 = n))).length : ℤ) -
        ((edges.filter (fun e => e.directed && decide (e.p2 = n))).length : ℤ)| +
      ((edges.filter (fun e => !e.directed)).length : ℤ)
  else (edges.length : ℤ)

/-- `brr::eulirian_compatible` (src/brr.rs:106-109). -/
def eulirian_compatible (D : Bool) (n : NId) (edges : List (BEdge W)) : Bool :=
  decide (combined_degree D n edges % 2 = 0) &&
    (!D || decide (0 ≤ combined_degree D n edges))

/-- Lexicographic order on the sort key of `kreek_pick`
(Rust tuple `Ord` on `(i64, f64s)`). -/
def lex_lt [LinearOrder W] (a b : ℤ × W) : Prop := a.1 < b.1 ∨ (a.1 = b.1 ∧ a.2 < b.2)

instance [LinearOrder W] : DecidableRel (α := ℤ × W) lex_lt := fun a b => by
  unfold lex_lt; infer_instance

/-- `sort_unstable_by_key` followed by `.next()`: the first element with
minimal key (the unstable tie order is irrelevant to every claim below). -/
def min_by_key [LinearOrder W] {α : Type} (f : α → ℤ × W) : List α → Option α
  | [] => none
  | x :: xs =>
      match min_by_key f xs with
      | none => some x
      | some y => if lex_lt (f y) (f x) then some y else some x

/-- The sort key of `kreek_pick` (src/brr.rs:118/122). -/
def pick_key [LinearOrder W] (g : Graph W) (e : BEdge W) : ℤ × W :=
  (-(((gget g e.p1).length % 2 + (gget g e.p2).length % 2 : ℕ) : ℤ), e.length)

/-- `brr::kreek_pick` (src/brr.rs:112-125); `none` models the
`.next().unwrap()` panic on an empty candidate list. -/
def kreek_pick (D : Bool) [LinearOrder W] (g : Graph W) (n : NId) (es : List (BEdge W)) :
    Option (BEdge W) :=
  let epre := es.filter (fun e =>
    !e.is_cycle && decide (es.countP (fun ee => is_similar e ee) = 1))
  let cand :=
    if D then
      let ind := (es.filter (fun e => e.directed && decide (e.p2 = n))).length
      let outd := (es.filter (fun e => e.directed && decide (e.p1 = n))).length
      epre.filter (fun e =>
        !e.directed || (decide (outd > ind) && decide (e.p2 = n)) ||
          (decide (ind > outd) && decide (e.p1 = n)))
    else epre
  min_by_key (pick_key g) cand

/-- Outcomes of `kreek` other than success, each carrying the graph at that
point: `dead_end` is the `Err(..)` return of src/brr.rs:134 (the offending
edge is kept explicitly), `broken` models the `unwrap` panics, and
`out_of_fuel` is an artefact of the fuelled model only. -/
inductive KreekErr (W : Type) where
  | dead_end (e : BEdge W) (g : Graph W)
  | broken (g : Graph W)
  | out_of_fuel (g : Graph W)
deriving DecidableEq

instance {ε α : Type} [DecidableEq ε] [DecidableEq α] : DecidableEq (Except ε α) := fun x y =>
  match x, y with
  | .ok a, .ok b => if h : a = b then .isTrue (by rw [h]) else .isFalse (by simp [h])
  | .error a, .error b => if h : a = b then .isTrue (by rw [h]) else .isFalse (by simp [h])
  | .ok _, .error _ => .isFalse (by simp)
  | .error _, .ok _ => .isFalse (by simp)

/-- The body of one Phase A iteration of `kreek` (src/brr.rs:132-137), for
the node-edges pair at the current index: duplicate the single edge of a
one-edge node, failing on a directed edge into the node. -/
def phase_a_step (D : Bool) (g : Graph W) (n : NId) (es : List (BEdge W)) :
    Except (KreekErr W) (Graph W) :=
  match es with
  | [e] =>
      if D && e.directed && decide (e.p2 = n) then .error (.dead_end e g)
      else
        match eadd (dupe e) g with
        | some g2 => .ok g2
        | none => .error (.broken g)
  | _ => .ok g

/-- Phase A of `kreek` (src/brr.rs:131-138): `for i in 0..g.len()`. -/
def phase_a (D : Bool) : List Nat → Graph W → Except (KreekErr W) (Graph W)
  | [], g => .ok g
  | i :: rest, g =>
      match g.get? i with
      | some (n, es) =>
          match phase_a_step D g n es with
          | .ok g2 => phase_a D rest g2
          | .error err => .error err
      | none => phase_a D rest g

/-- The body of one Phase B iteration of `kreek` (src/brr.rs:142), for the
Euler-incompatible node found: duplicate the edge picked by `kreek_pick`. -/
def phase_b_step (D : Bool) [LinearOrder W] (g : Graph W) (n : NId) (es : List (BEdge W)) :
    Except (KreekErr W) (Graph W) :=
  match kreek_pick D g n es with
  | none => .error (.broken g)
  | some e =>
      match eadd (dupe e) g with
      | some g2 => .ok g2
      | none => .error (.broken g)

/-- Phase B of `kreek` (src/brr.rs:141-143): while some node is not
Euler-compatible, duplicate a picked edge. -/
def phase_b (D : Bool) [LinearOrder W] : Nat → Graph W → Except (KreekErr W) (Graph W)
  | 0, g => .error (.out_of_fuel g)
  | fuel + 1, g =>
      match g.find? (fun p => !eulirian_compatible D p.1 p.2) with
      | none => .ok g
      | some (n, es) =>
          match phase_b_step D g n es with
          | .ok g2 => phase_b D fuel g2
          | .error err => .error err

/-- `brr::kreek` (src/brr.rs:128-147). -/
def kreek (D : Bool) [LinearOrder W] (fuel : Nat) (g : Graph W) :
    Except (KreekErr W) (Graph W) :=
  match phase_a D (List.range g.length) g with
  | .ok g2 => phase_b D fuel g2
  | .error err => .error err

/-- The graph state carried by a `kreek` outcome (the in-place view of
`Graph::eulirianize`, which mutates `self` even when it fails). -/
def kreek_graph : Except (KreekErr W) (Graph W) → Graph W
  | .ok g => g
  | .error (.dead_end _ g) => g
  | .error (.broken g) => g
  | .error (.out_of_fuel g) => g

def is_dead_end : Except (KreekErr W) (Graph W) → Bool
  | .error (.dead_end _ _) => true
  | _ => false

/-! ### C8: Eulerisation only adds edges -/

/-- `g'` extends `g`: same node keys, and every incidence list of `g` is an
unchanged prefix of the corresponding list of `g'`. -/
def gext (g g' : Graph W) : Prop :=
  gkeys g' = gkeys g ∧ ∀ n : NId, ∃ t : List (BEdge W), gget g' n = gget g n ++ t

theorem gext_refl (g : Graph W) : gext g g := ⟨rfl, fun _ => ⟨[], by simp⟩⟩

theorem gext_trans {g1 g2 g3 : Graph W} (h12 : gext g1 g2) (h23 : gext g2 g3) :
    gext g1 g3 := by
  refine ⟨h23.1.trans h12.1, fun n => ?_⟩
  obtain ⟨t1, ht1⟩ := h12.2 n
  obtain ⟨t2, ht2⟩ := h23.2 n
  exact ⟨t1 ++ t2, by rw [ht2, ht1, List.append_assoc]⟩

theorem gpush_gext (g : Graph W) (n : NId) (e : BEdge W) (g' : Graph W)
    (h : gpush g n e = some g') : gext g g' := by
  induction g generalizing g' with
  | nil => simp [gpush] at h
  | cons p rest ih =>
      obtain ⟨k, es⟩ := p
      unfold gpush at h
      by_cases hk : k = n
      · rw [if_pos hk] at h
        cases h
        refine ⟨by simp [gkeys], fun m => ?_⟩
        by_cases hm : k = m
        · exact ⟨[e], by simp [gget, hm]⟩
        · exact ⟨[], by simp [gget, hm]⟩
      · rw [if_neg hk] at h
        cases hr : gpush rest n e with
        | none => rw [hr] at h; cases h
        | some r =>
            rw [hr] at h
            cases h
            obtain ⟨hkeys, hext⟩ := ih r hr
            refine ⟨by simpa [gkeys] using hkeys, fun m => ?_⟩
            by_cases hm : k = m
            · exact ⟨[], by simp [gget, hm]⟩
            · obtain ⟨t, ht⟩ := hext m
              exact ⟨t, by simp [gget, hm, ht]⟩

theorem eadd_gext (e : BEdge W) (g g' : Graph W) (h : eadd e g = some g') :
    gext g g' := by
  unfold eadd at h
  cases h1 : gpush g e.p1 e with
  | none => rw [h1] at h; cases h
  | some g1 =>
      rw [h1] at h
      exact gext_trans (gpush_gext g e.p1 e g1 h1) (gpush_gext g1 e.p2 e g' h)

theorem phase_a_step_gext (D : Bool) (g : Graph W) (n : NId) (es : List (BEdge W))
    (g2 : Graph W) (h : phase_a_step D g n es = .ok g2) : gext g g2 := by
  unfold phase_a_step at h
  split at h
  · split at h
    · cases h
    · split at h
      · rename_i gx ha
        cases h
        exact eadd_gext _ g _ ha
      · cases h
  · cases h
    exact gext_refl _

theorem phase_a_step_error_graph (D : Bool) (g : Graph W) (n : NId)
    (es : List (BEdge W)) (err : KreekErr W) (h : phase_a_step D g n es = .error err) :
    kreek_graph (W := W) (.error err) = g := by
  unfold phase_a_step at h
  split at h
  · split at h
    · cases h; rfl
    · split at h
      · cases h
      · cases h; rfl
  · cases h

theorem phase_b_step_gext [LinearOrder W] (D : Bool) (g : Graph W) (n : NId)
    (es : List (BEdge W)) (g2 : Graph W) (h : phase_b_step D g n es = .ok g2) :
    gext g g2 := by
  unfold phase_b_step at h
  split at h
  · cases h
  · split at h
    · rename_i gx ha
      cases h
      exact eadd_gext _ g _ ha
    · cases h

theorem phase_b_step_error_graph [LinearOrder W] (D : Bool) (g : Graph W) (n : NId)
    (es : List (BEdge W)) (err : KreekErr W) (h : phase_b_step D g n es = .error err) :
    kreek_graph (W := W) (.error err) = g := by
  unfold phase_b_step at h
  split at h
  · cases h; rfl
  · split at h
    · cases h
    · cases h; rfl

theorem phase_a_gext (D : Bool) :
    ∀ (idxs : List Nat) (g : Graph W), gext g (kreek_graph (phase_a D idxs g)) := by
  intro idxs
  induction idxs with
  | nil => intro g; exact gext_refl g
  | cons i rest ih =>
      intro g
      unfold phase_a
      split
      · split
        · rename_i g2 hs
          exact gext_trans (phase_a_step_gext D g _ _ g2 hs) (ih g2)
        · rename_i err hs
          rw [phase_a_step_error_graph D g _ _ err hs]
          exact gext_refl g
      · exact ih g

theorem phase_b_gext [LinearOrder W] (D : Bool) :
    ∀ (fuel : Nat) (g : Graph W), gext g (kreek_graph (phase_b D fuel g)) := by
  intro fuel
  induction fuel with
  | zero => intro g; exact gext_refl g
  | succ m ih =>
      intro g
      unfold phase_b
      split
      · exact gext_refl g
      · split
        · rename_i g2 hs
          exact gext_trans (phase_b_step_gext D g _ _ g2 hs) (ih g2)
        · rename_i err hs
          rw [phase_b_step_error_graph D g _ _ err hs]
          exact gext_refl g

/-- **C8.** Eulerisation only adds edges: whatever `kreek` returns (success,
dead-end failure, panic, or fuel exhaustion in the model), the node keys are
unchanged and every incidence list of the input graph is an unchanged prefix
of the corresponding output list - no edge is removed or altered. -/
theorem c8_kreek_only_adds [LinearOrder W] (D : Bool) (fuel : Nat) (g : Graph W) :
    gkeys (kreek_graph (kreek D fuel g)) = gkeys g ∧
    ∀ n : NId, ∃ t : List (BEdge W),
      gget (kreek_graph (kreek D fuel g)) n = gget g n ++ t := by
  suffices h : gext g (kreek_graph (kreek D fuel g)) from ⟨h.1, h.2⟩
  unfold kreek
  cases hpa : phase_a D (List.range g.length) g with
  | ok g2 =>
      have h1 : gext g g2 := by
        have := phase_a_gext D (List.range g.length) g
        rw [hpa] at this
        exact this
      exact gext_trans h1 (phase_b_gext D fuel g2)
  | error err =>
      have := phase_a_gext D (List.range g.length) g
      rw [hpa] at this
      exact this

/-! ### C2: parity/non-negativity after successful Eulerisation -/

theorem phase_b_ok_compatible [LinearOrder W] (D : Bool) :
    ∀ (fuel : Nat) (g g' : Graph W), phase_b D fuel g = .ok g' →
      ∀ p ∈ g', eulirian_compatible D p.1 p.2 = true := by
  intro fuel
  induction fuel with
  | zero => intro g g' h; simp [phase_b] at h
  | succ m ih =>
      intro g g' h
      unfold phase_b at h
      split at h
      · rename_i hfind
        cases h
        intro p hp
        have := List.find?_eq_none.mp hfind p hp
        simpa using this
      · split at h
        · rename_i g2 hstep
          exact ih g2 g' h
        · cases h

/-- **C2.** Whenever Eulerisation succeeds, every node of the resulting graph
has an even combined degree, and - in direction-respect mode - a
non-negative one. -/
theorem c2_eulirianize_parity [LinearOrder W] (D : Bool) (fuel : Nat) (g g' : Graph W)
    (h : kreek D fuel g = .ok g') :
    ∀ p ∈ g', combined_degree D p.1 p.2 % 2 = 0 ∧
      (D = true → 0 ≤ combined_degree D p.1 p.2) := by
  intro p hp
  have hcompat : eulirian_compatible D p.1 p.2 = true := by
    unfold kreek at h
    split at h
    · rename_i g2 hpa
      exact phase_b_ok_compatible D fuel g2 g' h p hp
    · cases h
  unfold eulirian_compatible at hcompat
  simp only [Bool.and_eq_true, decide_eq_true_eq, Bool.or_eq_true,
    Bool.not_eq_true'] at hcompat
  refine ⟨hcompat.1, fun hD => ?_⟩
  rcases hcompat.2 with hfalse | hge
  · rw [hD] at hfalse; cases hfalse
  · exact hge

def triEdgeAB : BEdge ℤ := ⟨"A", "B", none, false, 1, 0⟩

def triEdgeBC : BEdge ℤ := ⟨"B", "C", none, false, 1, 0⟩

def triEdgeCA : BEdge ℤ := ⟨"C", "A", none, false, 1, 0⟩

def triGraph : Graph ℤ :=
  [("A", [triEdgeAB, triEdgeCA]), ("B", [triEdgeAB, triEdgeBC]),
   ("C", [triEdgeBC, triEdgeCA])]

theorem c2_eulirianize_parity_witness :
    kreek false 3 triGraph = .ok triGraph ∧
    combined_degree false "A" (gget triGraph "A") % 2 = 0 :=
  ⟨by decide,
   (c2_eulirianize_parity false 3 triGraph triGraph (by decide)
      ("A", [triEdgeAB, triEdgeCA]) (by decide)).1⟩

/-! ### C6: the one-way dead-end failure -/

def deadEndEdge : BEdge ℤ := ⟨"A", "B", none, true, 1, 0⟩

def deadEndGraphAFirst : Graph ℤ := [("A", [deadEndEdge]), ("B", [deadEndEdge])]

/-- **C6 counterexample.** In the graph with the single directed edge
`A → B` and node order `[A, B]`, node `B`'s incidence set is exactly the
one directed-in edge, yet `kreek` does not return the dead-end failure: by
the time Phase A scans `B`, the edge was already duplicated while scanning
`A`, and the run instead hits the `kreek_pick` unwrap panic in Phase B. -/
theorem c6_dead_end_counterexample :
    gget deadEndGraphAFirst "B" = [deadEndEdge] ∧
    deadEndEdge.directed = true ∧ deadEndEdge.p2 = "B" ∧
    is_dead_end (kreek true 5 deadEndGraphAFirst) = false := by decide

/-- **C6 amended.** In direction-respect mode the dead-end failure carrying
the offending edge is returned when Phase A scans the node while its
incidence set is still the offending singleton - in particular whenever
that node comes first in the graph's iteration order; scanned later, the
configuration can lead to a panic instead of the failure. -/
theorem c6_dead_end_amended [LinearOrder W] (fuel : Nat) (n : NId) (e : BEdge W)
    (rest : Graph W) (hd : e.directed = true) (hp : e.p2 = n) :
    kreek true fuel ((n, [e]) :: rest) =
      .error (.dead_end e ((n, [e]) :: rest)) := by
  subst hp
  unfold kreek
  have hlen : ((e.p2, [e]) :: rest).length = rest.length + 1 := rfl
  rw [hlen, List.range_succ_eq_map]
  unfold phase_a
  simp [phase_a_step, hd]

theorem c6_dead_end_amended_witness :
    kreek true 5 [("B", [deadEndEdge]), ("A", [deadEndEdge])] =
      .error (.dead_end deadEndEdge [("B", [deadEndEdge]), ("A", [deadEndEdge])]) :=
  c6_dead_end_amended 5 "B" deadEndEdge [("A", [deadEndEdge])] (by decide) (by decide)

/-! ### The cycle-on-vertex searches: `bicycle` and `cycle_on` -/

/-- `PriorityQueue::push` on item type `α`: replace the priority if the item
is present, else insert. -/
def bq_push {α : Type} [DecidableEq α] (q : List (α × W)) (x : α) (p : W) : List (α × W) :=
  (q.filter (fun y => !decide (y.1 = x))) ++ [(x, p)]

/-- Greatest-priority entry (leftmost among equals; the concrete runs below
have no equal priorities). -/
def bq_max {α : Type} [LinearOrder W] : List (α × W) → Option (α × W)
  | [] => none
  | x :: xs =>
      match bq_max xs with
      | none => some x
      | some y => if x.2 ≥ y.2 then some x else some y

/-- `PriorityQueue::pop`: remove and return a greatest-priority entry. -/
def bq_pop {α : Type} [DecidableEq α] [LinearOrder W] (q : List (α × W)) :
    Option ((α × W) × List (α × W)) :=
  match bq_max q with
  | none => none
  | some x => some (x, q.erase x)

/-- The always-allowed weight function `|e| Some(e.length)` implicit in
`bicycle`. -/
def wlen : BEdge W → Option W := fun e => some e.length

/-- Walk validity: `gwalk g D wf a es b` holds when `es` traverses from `a`
to `b` through incidence lists of `g`, each edge allowed by direction-respect
`D` and given a weight by `wf` (the legality condition of the searches:
`!D || !e.directed || e.p1 == current`). -/
def gwalk [DecidableEq W] (g : Graph W) (D : Bool) (wf : BEdge W → Option W) :
    NId → List (BEdge W) → NId → Bool
  | a, [], b => decide (a = b)
  | a, e :: es, b =>
      decide (e ∈ gget g a) && (!D || !e.directed || decide (e.p1 = a)) &&
        (wf e).isSome && gwalk g D wf (other e a) es b

/-- Total weight of an edge sequence under a weight function. -/
def wcost [AddCommMonoid W] (wf : BEdge W → Option W) (es : List (BEdge W)) : W :=
  (es.map (fun e => (wf e).getD 0)).sum

/-- The node reached by traversing `es` from `n` by repeated `Edge::other`. -/
def walk_end (n : NId) (es : List (BEdge W)) : NId :=
  es.foldl (fun v e => other e v) n

/-- Pairwise distinctness under the Rust `Edge` equality. -/
def path_nodup : List (BEdge W) → Bool
  | [] => true
  | e :: es => !econtains es e && path_nodup es

/-- `brr::bicycle`'s search loop (src/brr.rs:153-164): pop the
greatest-priority `(node, path)` state (the crate's `PriorityQueue` is a max
heap and the accumulated distance is pushed un-negated), return the path
when back at `n0` with a non-empty path, else extend by every incident edge
not already on the path. -/
def bicycle_go (D : Bool) [LinearOrder W] [AddCommMonoid W] [DecidableEq W]
    (g : Graph W) (n0 : NId) :
    Nat → List ((NId × List (BEdge W)) × W) → Option (List (BEdge W))
  | 0, _ => none
  | fuel + 1, q =>
      match bq_pop q with
      | none => none
      | some (((n, path), d), q') =>
          if n = n0 ∧ path ≠ [] then some path
          else
            bicycle_go D g n0 fuel
              ((gget g n).foldl (fun acc e =>
                if !econtains path e && (!D || !e.directed || decide (e.p1 = n)) then
                  bq_push acc (other e n, path ++ [e]) (d + e.length)
                else acc) q')

/-- `brr::bicycle` (src/brr.rs:150-166). -/
def bicycle (D : Bool) [LinearOrder W] [AddCommMonoid W] [DecidableEq W]
    (g : Graph W) (n0 : NId) (ave : List (BEdge W)) (fuel : Nat) :
    Option (List (BEdge W)) :=
  bicycle_go D g n0 fuel [((n0, ave), 0)]

/-- `Graph::cycle_on`'s search loop (src/graph.rs:187-203). Note the push of
`(u, path)` on line 198: the state keeps the *current* node `u` instead of
moving to `e.other(u)`, and the accumulated weight is again pushed into the
max heap un-negated. -/
def cycle_on_go (D : Bool) [LinearOrder W] [AddCommMonoid W] [DecidableEq W]
    (g : Graph W) (wf : BEdge W → Option W) (n0 : NId) :
    Nat → List ((NId × List (BEdge W)) × W) → Option (List (BEdge W))
  | 0, _ => none
  | fuel + 1, q =>
      match bq_pop q with
      | none => none
      | some (((u, path), d), q') =>
          if u = n0 ∧ path ≠ [] then some path
          else
            cycle_on_go D g wf n0 fuel
              ((gget g u).foldl (fun acc e =>
                if !econtains path e && (!D || !e.directed || decide (e.p1 = u)) then
                  match wf e with
                  | some ed => bq_push acc (u, path ++ [e]) (d + ed)
                  | none => acc
                else acc) q')

/-- `Graph::cycle_on` (src/graph.rs:181-204). -/
def cycle_on (D : Bool) [LinearOrder W] [AddCommMonoid W] [DecidableEq W]
    (g : Graph W) (wf : BEdge W → Option W) (n0 : NId) (fuel : Nat) :
    Option (List (BEdge W)) :=
  cycle_on_go D g wf n0 fuel [((n0, []), 0)]

def cycE1 : BEdge ℤ := ⟨"A", "B", none, false, 1, 0⟩

def cycE2 : BEdge ℤ := ⟨"A", "B", some "x", false, 2, 0⟩

def cycE3 : BEdge ℤ := ⟨"A", "C", none, false, 5, 0⟩

def cycE4 : BEdge ℤ := ⟨"A", "C", some "x", false, 6, 0⟩

def cycGraph : Graph ℤ :=
  [("A", [cycE1, cycE2, cycE3, cycE4]), ("B", [cycE1, cycE2]), ("C", [cycE3, cycE4])]

def sEdge : BEdge ℤ := ⟨"A", "B", none, false, 1, 0⟩

def sGraph : Graph ℤ := [("A", [sEdge]), ("B", [sEdge])]

/-- **C1.** The cycle-on-vertex searches do not return minimum-weight cycles,
and `cycle_on` does not even return closed walks. On `cycGraph` (two
parallel `A - B` edges of lengths 1 and 2, two parallel `A - C` edges of
lengths 5 and 6), `bicycle` returns the cycle `[cycE4, cycE3]` of total
weight 11 although `[cycE1, cycE2]` is an edge-distinct closed walk on `A`
of total weight 3: the accumulated weight is pushed un-negated into a
max-heap, so the heaviest frontier state is expanded first. On the
single-undirected-edge graph `sGraph`, `cycle_on` returns the one-edge
sequence `[sEdge]`, whose traversal from `A` ends at `B ≠ A`, because
line 198 of src/graph.rs re-enqueues the current node `u` instead of
`e.other(u)`. -/
theorem c1_cycle_search_not_minimal :
    bicycle false cycGraph "A" [] 10 = some [cycE4, cycE3] ∧
    gwalk cycGraph false wlen "A" [cycE4, cycE3] "A" = true ∧
    gwalk cycGraph false wlen "A" [cycE1, cycE2] "A" = true ∧
    path_nodup [cycE1, cycE2] = true ∧
    wcost wlen [cycE1, cycE2] = 3 ∧
    wcost wlen [cycE4, cycE3] = 11 ∧
    ¬((11 : ℤ) ≤ 3) ∧
    cycle_on false sGraph wlen "A" 3 = some [sEdge] ∧
    walk_end "A" [sEdge] = "B" ∧ ("B" : NId) ≠ "A" := by
  refine ⟨?_, ?_, ?_, ?_, ?_, ?_, ?_, ?_, ?_, ?_⟩ <;> decide

/-! ### Shortest paths: `pathfind` -/

/-- The Dijkstra bookkeeping map
`dp : HashMap<NodeId, (Weight, Option<&Edge>)>`. -/
abbrev DPMap (W : Type) := NId → Option (W × Option (BEdge W))

def dp_insert (dp : DPMap W) (v : NId) (x : W × Option (BEdge W)) : DPMap W :=
  fun y => if y = v then some x else dp y

/-- One relaxation of `pathfind`'s inner loop (src/graph.rs:123-134,
identically src/brr.rs:186-195): for an edge permitted by direction-respect
and given a weight, improve `dp` at `e.other(u)` when strictly better and
(re-)push that node with the negated tentative distance (the crate's
`PriorityQueue` is a max-heap). -/
def relax_edge (D : Bool) [LinearOrderedAddCommGroup W] (wf : BEdge W → Option W)
    (u : NId) (du : W) (st : DPMap W × List (NId × W)) (e : BEdge W) :
    DPMap W × List (NId × W) :=
  if !D || !e.directed || decide (e.p1 = u) then
    match wf e with
    | some ed =>
        let v := other e u
        let d := du + ed
        match st.1 v with
        | some (dv, _) =>
            if d < dv then (dp_insert st.1 v (d, some e), bq_push st.2 v (-d)) else st
        | none => (dp_insert st.1 v (d, some e), bq_push st.2 v (-d))
    | none => st
  else st

/-- Path reconstruction (src/graph.rs:113-119): follow `dp` back-pointers
from the target, building the edge sequence front-to-back (the Rust code
pushes and then reverses). -/
def recon (dp : DPMap W) : Nat → NId → List (BEdge W) → Option (List (BEdge W))
  | 0, _, _ => none
  | fuel + 1, v, acc =>
      match dp v with
      | some (_, some e) => recon dp fuel (other e v) (e :: acc)
      | _ => some acc

/-- The `while let Some((u, _)) = q.pop()` loop of `pathfind`
(src/graph.rs:111-135): the target test precedes the `dp` lookup and the
edge expansion; a pop of a node absent from `dp` models the `unwrap` panic
as `none`. -/
def pathfind_go (D : Bool) [LinearOrderedAddCommGroup W] (g : Graph W)
    (wf : BEdge W → Option W) (n2 : NId) :
    Nat → DPMap W × List (NId × W) → Option (List (BEdge W))
  | 0, _ => none
  | fuel + 1, st =>
      match bq_pop st.2 with
      | none => none
      | some ((u, _), q') =>
          if u = n2 then recon st.1 (fuel + 1) u []
          else
            match st.1 u with
            | none => none
            | some (du, _) =>
                pathfind_go D g wf n2 fuel ((gget g u).foldl (relax_edge D wf u du) (st.1, q'))

/-- `Graph::pathfind` (src/graph.rs:102-137); `brr::pathfind`
(src/brr.rs:169-198) is the instance `wf := wlen`. -/
def pathfind (D : Bool) [LinearOrderedAddCommGroup W] (g : Graph W)
    (wf : BEdge W → Option W) (n1 n2 : NId) (fuel : Nat) : Option (List (BEdge W)) :=
  pathfind_go D g wf n2 fuel (dp_insert (fun _ => none) n1 (0, none), [(n1, 0)])

/-- **C9.** For every graph, weight function and node `a` - even one with no
incident edges or absent from the graph - `pathfind a a` returns `some` of
the empty edge sequence (total cost `0`): the first popped state is the
start node, and the target test fires before any `dp` lookup or edge
expansion. -/
theorem c9_pathfind_self [LinearOrderedAddCommGroup W] (D : Bool) (g : Graph W)
    (wf : BEdge W → Option W) (a : NId) (fuel : Nat) :
    pathfind D g wf a a (fuel + 1) = some [] ∧ wcost wf ([] : List (BEdge W)) = 0 := by
  constructor
  · unfold pathfind pathfind_go
    simp [bq_pop, bq_max, recon, dp_insert]
  · rfl

theorem c9_pathfind_self_witness :
    pathfind false ([] : Graph ℤ) wlen "A" "A" 1 = some [] :=
  (c9_pathfind_self false ([] : Graph ℤ) wlen "A" 0).1

/-! ### C7: walk and queue lemmas -/

def qkeys (q : List (NId × W)) : List NId := q.map Prod.fst

theorem gwalk_nil_iff [DecidableEq W] (g : Graph W) (D : Bool) (wf : BEdge W → Option W)
    (a b : NId) : gwalk g D wf a [] b = true ↔ a = b := by
  simp [gwalk]

theorem gwalk_cons_iff [DecidableEq W] (g : Graph W) (D : Bool) (wf : BEdge W → Option W)
    (a b : NId) (e : BEdge W) (es : List (BEdge W)) :
    gwalk g D wf a (e :: es) b = true ↔
      e ∈ gget g a ∧ (!D || !e.directed || decide (e.p1 = a)) = true ∧
        (wf e).isSome = true ∧ gwalk g D wf (other e a) es b = true := by
  simp [gwalk, Bool.and_eq_true, and_assoc]

theorem wcost_nil [AddCommMonoid W] (wf : BEdge W → Option W) :
    wcost wf ([] : List (BEdge W)) = 0 := rfl

theorem wcost_cons [AddCommMonoid W] (wf : BEdge W → Option W) (e : BEdge W)
    (es : List (BEdge W)) : wcost wf (e :: es) = (wf e).getD 0 + wcost wf es := by
  simp [wcost]

theorem wcost_append_one [AddCommMonoid W] (wf : BEdge W → Option W) (es : List (BEdge W))
    (e : BEdge W) : wcost wf (es ++ [e]) = wcost wf es + (wf e).getD 0 := by
  simp [wcost]

theorem wcost_nonneg_of_gwalk [LinearOrderedAddCommGroup W] (g : Graph W) (D : Bool)
    (wf : BEdge W → Option W) (wnn : ∀ e c, wf e = some c → 0 ≤ c) :
    ∀ (p : List (BEdge W)) (a b : NId), gwalk g D wf a p b = true → 0 ≤ wcost wf p := by
  intro p
  induction p with
  | nil => intro a b _; simp [wcost]
  | cons e es ih =>
      intro a b h
      rw [gwalk_cons_iff] at h
      obtain ⟨_, _, hsome, htail⟩ := h
      obtain ⟨c, hc⟩ := Option.isSome_iff_exists.mp hsome
      have h1 : 0 ≤ (wf e).getD 0 := by
        rw [hc]; exact wnn e c hc
      have h2 := ih (other e a) b htail
      rw [wcost_cons]
      exact add_nonneg h1 h2

theorem gwalk_append_one [DecidableEq W] (g : Graph W) (D : Bool) (wf : BEdge W → Option W) :
    ∀ (p : List (BEdge W)) (a b : NId), gwalk g D wf a p b = true →
      ∀ e, e ∈ gget g b → (!D || !e.directed || decide (e.p1 = b)) = true →
        (wf e).isSome = true → gwalk g D wf a (p ++ [e]) (other e b) = true := by
  intro p
  induction p with
  | nil =>
      intro a b h e hm hd hw
      rw [gwalk_nil_iff] at h
      subst h
      rw [List.nil_append, gwalk_cons_iff]
      exact ⟨hm, hd, hw, by rw [gwalk_nil_iff]⟩
  | cons e0 es ih =>
      intro a b h e hm hd hw
      rw [gwalk_cons_iff] at h
      obtain ⟨h1, h2, h3, h4⟩ := h
      rw [List.cons_append, gwalk_cons_iff]
      exact ⟨h1, h2, h3, ih (other e0 a) b h4 e hm hd hw⟩

theorem gwalk_mono [LinearOrder W] (g : Graph W) (D : Bool) (wf wf' : BEdge W → Option W)
    (hle : ∀ e c', wf' e = some c' → ∃ c, wf e = some c ∧ c ≤ c') :
    ∀ (p : List (BEdge W)) (a b : NId), gwalk g D wf' a p b = true →
      gwalk g D wf a p b = true := by
  intro p
  induction p with
  | nil => intro a b h; rwa [gwalk_nil_iff] at h ⊢
  | cons e es ih =>
      intro a b h
      rw [gwalk_cons_iff] at h ⊢
      obtain ⟨h1, h2, h3, h4⟩ := h
      obtain ⟨c', hc'⟩ := Option.isSome_iff_exists.mp h3
      obtain ⟨c, hc, _⟩ := hle e c' hc'
      exact ⟨h1, h2, by simp [hc], ih (other e a) b h4⟩

theorem wcost_mono [LinearOrderedAddCommGroup W] (g : Graph W) (D : Bool)
    (wf wf' : BEdge W → Option W)
    (hle : ∀ e c', wf' e = some c' → ∃ c, wf e = some c ∧ c ≤ c') :
    ∀ (p : List (BEdge W)) (a b : NId), gwalk g D wf' a p b = true →
      wcost wf p ≤ wcost wf' p := by
  intro p
  induction p with
  | nil => intro a b _; simp [wcost]
  | cons e es ih =>
      intro a b h
      rw [gwalk_cons_iff] at h
      obtain ⟨_, _, h3, h4⟩ := h
      obtain ⟨c', hc'⟩ := Option.isSome_iff_exists.mp h3
      obtain ⟨c, hc, hcc⟩ := hle e c' hc'
      rw [wcost_cons, wcost_cons]
      have : (wf e).getD 0 ≤ (wf' e).getD 0 := by simp [hc, hc']; exact hcc
      exact add_le_add this (ih (other e a) b h4)

theorem bq_max_eq_none {α : Type} [LinearOrder W] (q : List (α × W)) :
    bq_max q = none ↔ q = [] := by
  cases q with
  | nil => simp [bq_max]
  | cons y ys =>
      simp only [bq_max]
      constructor
      · intro h
        split at h
        · cases h
        · split at h <;> cases h
      · intro h; cases h

theorem bq_max_mem {α : Type} [LinearOrder W] :
    ∀ (q : List (α × W)) (x : α × W), bq_max q = some x → x ∈ q := by
  intro q
  induction q with
  | nil => intro x h; cases h
  | cons y ys ih =>
      intro x h
      unfold bq_max at h
      split at h
      · cases h; exact List.mem_cons_self _ _
      · rename_i z hm
        split at h
        · cases h; exact List.mem_cons_self _ _
        · cases h; exact List.mem_cons_of_mem _ (ih _ hm)

theorem bq_max_is_max {α : Type} [LinearOrder W] :
    ∀ (q : List (α × W)) (x : α × W), bq_max q = some x → ∀ y ∈ q, y.2 ≤ x.2 := by
  intro q
  induction q with
  | nil => intro x h; cases h
  | cons z zs ih =>
      intro x h y hy
      unfold bq_max at h
      split at h
      · rename_i hm
        cases h
        rcases List.mem_cons.mp hy with hz | hz
        · rw [hz]
        · rw [(bq_max_eq_none zs).mp hm] at hz
          cases hz
      · rename_i m hm
        split at h
        · rename_i hge
          cases h
          rcases List.mem_cons.mp hy with hz | hz
          · rw [hz]
          · exact le_trans (ih m hm y hz) hge
        · rename_i hge
          cases h
          rcases List.mem_cons.mp hy with hz | hz
          · rw [hz]; exact le_of_not_le hge
          · exact ih x hm y hz

theorem bq_pop_eq {α : Type} [DecidableEq α] [LinearOrder W] (q : List (α × W))
    (x : α × W) (q' : List (α × W)) (h : bq_pop q = some (x, q')) :
    bq_max q = some x ∧ q' = q.erase x := by
  unfold bq_pop at h
  cases hm : bq_max q with
  | none => rw [hm] at h; cases h
  | some y => rw [hm] at h; cases h; exact ⟨rfl, rfl⟩

theorem mem_bq_push {α : Type} [DecidableEq α] (q : List (α × W)) (x : α) (p : W)
    (y : α × W) : y ∈ bq_push q x p ↔ (y ∈ q ∧ y.1 ≠ x) ∨ y = (x, p) := by
  simp [bq_push, List.mem_filter, List.mem_append, decide_eq_true_eq]

theorem mem_qkeys (q : List (NId × W)) (z : NId) :
    z ∈ qkeys q ↔ ∃ p, (z, p) ∈ q := by
  constructor
  · intro h
    obtain ⟨y, hy, hz⟩ := List.mem_map.mp h
    exact ⟨y.2, by rwa [show (z, y.2) = y from by rw [← hz]]⟩
  · rintro ⟨p, hp⟩
    exact List.mem_map.mpr ⟨(z, p), hp, rfl⟩

theorem qkeys_bq_push (q : List (NId × W)) (x : NId) (p : W) (z : NId) :
    z ∈ qkeys (bq_push q x p) ↔ (z ∈ qkeys q ∧ z ≠ x) ∨ z = x := by
  rw [mem_qkeys]
  constructor
  · rintro ⟨pz, hpz⟩
    rcases (mem_bq_push q x p (z, pz)).mp hpz with ⟨hq, hne⟩ | heq
    · exact Or.inl ⟨(mem_qkeys q z).mpr ⟨pz, hq⟩, hne⟩
    · exact Or.inr (congrArg Prod.fst heq)
  · rintro (⟨hq, hne⟩ | heq)
    · obtain ⟨pz, hpz⟩ := (mem_qkeys q z).mp hq
      exact ⟨pz, (mem_bq_push q x p (z, pz)).mpr (Or.inl ⟨hpz, hne⟩)⟩
    · exact ⟨p, (mem_bq_push q x p (z, p)).mpr (Or.inr (by rw [heq]))⟩

theorem qkeys_bq_push_nodup (q : List (NId × W)) (x : NId) (p : W)
    (h : (qkeys q).Nodup) : (qkeys (bq_push q x p)).Nodup := by
  unfold bq_push qkeys
  rw [List.map_append]
  apply List.Nodup.append
  · exact h.sublist ((List.filter_sublist q).map Prod.fst)
  · exact List.nodup_singleton x
  · intro z hz hz2
    simp at hz2
    subst hz2
    obtain ⟨y, hy, hz⟩ := List.mem_map.mp hz
    have := (List.mem_filter.mp hy).2
    simp [decide_eq_true_eq] at this
    exact this hz

theorem qkeys_cons (y : NId × W) (ys : List (NId × W)) :
    qkeys (y :: ys) = y.1 :: qkeys ys := rfl

theorem qkeys_erase_not_mem [LinearOrder W] :
    ∀ (q : List (NId × W)) (x : NId × W),
      (qkeys q).Nodup → x ∈ q → x.1 ∉ qkeys (q.erase x) := by
  intro q
  induction q with
  | nil => intro x _ hx; cases hx
  | cons y ys ih =>
      intro x hnod hx
      rw [qkeys_cons] at hnod
      have h1 : y.1 ∉ qkeys ys := (List.nodup_cons.mp hnod).1
      have h2 : (qkeys ys).Nodup := (List.nodup_cons.mp hnod).2
      rw [List.erase_cons]
      by_cases hbe : y = x
      · rw [if_pos (by simp [hbe])]
        subst hbe
        exact h1
      · rw [if_neg (by simp [hbe])]
        have hx' : x ∈ ys := by
          rcases List.mem_cons.mp hx with h | h
          · exact absurd h.symm hbe
          · exact h
        have hx1 : x.1 ∈ qkeys ys := List.mem_map_of_mem Prod.fst hx'
        have hne : x.1 ≠ y.1 := fun h => h1 (h ▸ hx1)
        rw [qkeys_cons]
        intro hmem
        rcases List.mem_cons.mp hmem with h | h
        · exact hne h
        · exact ih x h2 hx' h

theorem qkeys_erase_mem [LinearOrder W] :
    ∀ (q : List (NId × W)) (x : NId × W) (z : NId),
      z ∈ qkeys q → z ≠ x.1 → z ∈ qkeys (q.erase x) := by
  intro q
  induction q with
  | nil => intro x z hz _; cases hz
  | cons y ys ih =>
      intro x z hz hne
      rw [qkeys_cons] at hz
      rw [List.erase_cons]
      by_cases hbe : y = x
      · rw [if_pos (by simp [hbe])]
        rcases List.mem_cons.mp hz with h | h
        · exact absurd (by rw [h, hbe]) hne
        · exact h
      · rw [if_neg (by simp [hbe])]
        rw [qkeys_cons]
        rcases List.mem_cons.mp hz with h | h
        · exact List.mem_cons.mpr (Or.inl h)
        · exact List.mem_cons.mpr (Or.inr (ih x z h hne))

theorem qkeys_erase_subset [LinearOrder W] (q : List (NId × W)) (x : NId × W) (z : NId)
    (hz : z ∈ qkeys (q.erase x)) : z ∈ qkeys q := by
  obtain ⟨p, hp⟩ := (mem_qkeys _ z).mp hz
  exact (mem_qkeys q z).mpr ⟨p, List.mem_of_mem_erase hp⟩

theorem qkeys_erase_nodup [LinearOrder W] (q : List (NId × W)) (x : NId × W)
    (h : (qkeys q).Nodup) : (qkeys (q.erase x)).Nodup :=
  h.sublist ((List.erase_sublist x q).map Prod.fst)

theorem other_other (e : BEdge W) (u : NId) (h : e.p1 = u ∨ e.p2 = u) :
    other e (other e u) = u := by
  rcases h with h | h
  · subst h
    by_cases hpp : e.p2 = e.p1 <;> simp [other, hpp]
  · subst h
    by_cases hpp : e.p2 = e.p1 <;> simp [other, hpp]

/-- The loop invariant of `pathfind_go`. `dp` entries record tentative
distances realised by actual walks with consistent back-pointers; queue
priorities mirror negated `dp` values; settled nodes (discovered, not in the
queue) carry optimal values and have all their outgoing edges relaxed. -/
structure DInv [LinearOrderedAddCommGroup W] (g : Graph W) (D : Bool)
    (wf : BEdge W → Option W) (n1 : NId) (dp : DPMap W) (q : List (NId × W)) : Prop where
  src : dp n1 = some (0, none)
  mirror : ∀ v p, (v, p) ∈ q → ∃ pe, dp v = some (-p, pe)
  qnodup : (qkeys q).Nodup
  real : ∀ v w pe, dp v = some (w, pe) →
    ∃ pth, gwalk g D wf n1 pth v = true ∧ wcost wf pth = w
  bp : ∀ v w e, dp v = some (w, some e) →
    e ∈ gget g (other e v) ∧
    (!D || !e.directed || decide (e.p1 = other e v)) = true ∧
    other e (other e v) = v ∧
    (∃ c pu, wf e = some c ∧ dp (other e v) = some (w - c, pu)) ∧
    other e v ∉ qkeys q
  bpnone : ∀ v w, dp v = some (w, none) → v = n1
  lb : ∀ v w pe, dp v = some (w, pe) → v ∉ qkeys q →
    ∀ pth, gwalk g D wf n1 pth v = true → w ≤ wcost wf pth
  relaxed : ∀ v w pe, dp v = some (w, pe) → v ∉ qkeys q →
    ∀ e ∈ gget g v, (!D || !e.directed || decide (e.p1 = v)) = true →
      ∀ c, wf e = some c →
        ∃ w2 pe2, dp (other e v) = some (w2, pe2) ∧ w2 ≤ w + c

/-- The invariant holding during the relaxation sweep of a popped node `u`
(already settled, `dp u = (du, _)` fixed, but only part of its edges
relaxed). -/
structure SweepInv [LinearOrderedAddCommGroup W] (g : Graph W) (D : Bool)
    (wf : BEdge W → Option W) (n1 : NId) (u : NId) (du : W)
    (dp : DPMap W) (q : List (NId × W)) : Prop where
  src : dp n1 = some (0, none)
  mirror : ∀ v p, (v, p) ∈ q → ∃ pe, dp v = some (-p, pe)
  qnodup : (qkeys q).Nodup
  real : ∀ v w pe, dp v = some (w, pe) →
    ∃ pth, gwalk g D wf n1 pth v = true ∧ wcost wf pth = w
  bp : ∀ v w e, dp v = some (w, some e) →
    e ∈ gget g (other e v) ∧
    (!D || !e.directed || decide (e.p1 = other e v)) = true ∧
    other e (other e v) = v ∧
    (∃ c pu, wf e = some c ∧ dp (other e v) = some (w - c, pu)) ∧
    other e v ∉ qkeys q
  bpnone : ∀ v w, dp v = some (w, none) → v = n1
  lb : ∀ v w pe, dp v = some (w, pe) → v ∉ qkeys q →
    ∀ pth, gwalk g D wf n1 pth v = true → w ≤ wcost wf pth
  relaxedx : ∀ v w pe, dp v = some (w, pe) → v ∉ qkeys q → v ≠ u →
    ∀ e ∈ gget g v, (!D || !e.directed || decide (e.p1 = v)) = true →
      ∀ c, wf e = some c →
        ∃ w2 pe2, dp (other e v) = some (w2, pe2) ∧ w2 ≤ w + c
  hu : ∃ peu, dp u = some (du, peu)
  unotq : u ∉ qkeys q

theorem dinv_nonneg [LinearOrderedAddCommGroup W] {g : Graph W} {D : Bool}
    {wf : BEdge W → Option W} {n1 : NId} {dp : DPMap W} {q : List (NId × W)}
    (inv : DInv g D wf n1 dp q) (wnn : ∀ e c, wf e = some c → 0 ≤ c) :
    ∀ v w pe, dp v = some (w, pe) → 0 ≤ w := by
  intro v w pe h
  obtain ⟨pth, hwk, hc⟩ := inv.real v w pe h
  rw [← hc]
  exact wcost_nonneg_of_gwalk g D wf wnn pth n1 v hwk

theorem sweepinv_nonneg [LinearOrderedAddCommGroup W] {g : Graph W} {D : Bool}
    {wf : BEdge W → Option W} {n1 u : NId} {du : W} {dp : DPMap W} {q : List (NId × W)}
    (inv : SweepInv g D wf n1 u du dp q) (wnn : ∀ e c, wf e = some c → 0 ≤ c) :
    ∀ v w pe, dp v = some (w, pe) → 0 ≤ w := by
  intro v w pe h
  obtain ⟨pth, hwk, hc⟩ := inv.real v w pe h
  rw [← hc]
  exact wcost_nonneg_of_gwalk g D wf wnn pth n1 v hwk

theorem walk_bound [LinearOrderedAddCommGroup W] {g : Graph W} {D : Bool}
    {wf : BEdge W → Option W} {n1 : NId} {dp : DPMap W} {q : List (NId × W)}
    (inv : DInv g D wf n1 dp q) (wnn : ∀ e c, wf e = some c → 0 ≤ c) :
    ∀ (pth : List (BEdge W)) (a b : NId) (wa : W) (pea : Option (BEdge W)) (X : W),
      gwalk g D wf a pth b = true → dp a = some (wa, pea) → wa ≤ X →
      (∃ y wy pey, y ∈ qkeys q ∧ dp y = some (wy, pey) ∧ wy ≤ X + wcost wf pth) ∨
      (∃ wb peb, dp b = some (wb, peb) ∧ b ∉ qkeys q ∧ wb ≤ X + wcost wf pth) := by
  intro pth
  induction pth with
  | nil =>
      intro a b wa pea X hw hdp hle
      rw [gwalk_nil_iff] at hw
      subst hw
      by_cases hq : a ∈ qkeys q
      · exact Or.inl ⟨a, wa, pea, hq, hdp, by simpa [wcost] using hle⟩
      · exact Or.inr ⟨wa, pea, hdp, hq, by simpa [wcost] using hle⟩
  | cons e es ih =>
      intro a b wa pea X hw hdp hle
      have hw' := hw
      rw [gwalk_cons_iff] at hw
      obtain ⟨hm, hd, hsome, htail⟩ := hw
      obtain ⟨c, hc⟩ := Option.isSome_iff_exists.mp hsome
      have hgetd : (wf e).getD 0 = c := by simp [hc]
      by_cases hq : a ∈ qkeys q
      · refine Or.inl ⟨a, wa, pea, hq, hdp, ?_⟩
        have h0 : 0 ≤ wcost wf (e :: es) :=
          wcost_nonneg_of_gwalk g D wf wnn (e :: es) a b hw'
        exact le_trans hle (le_add_of_nonneg_right h0)
      · obtain ⟨w2, pe2, hdp2, hle2⟩ := inv.relaxed a wa pea hdp hq e hm hd c hc
        have hX2 : w2 ≤ X + c := le_trans hle2 (add_le_add_right hle c)
        have hrec := ih (other e a) b w2 pe2 (X + c) htail hdp2 hX2
        have hcost : X + c + wcost wf es = X + wcost wf (e :: es) := by
          rw [wcost_cons, hgetd, add_assoc]
        rcases hrec with ⟨y, wy, pey, hy, hdpy, hby⟩ | ⟨wb, peb, hdpb, hnb, hbb⟩
        · exact Or.inl ⟨y, wy, pey, hy, hdpy, by rwa [hcost] at hby⟩
        · exact Or.inr ⟨wb, peb, hdpb, hnb, by rwa [hcost] at hbb⟩

theorem pop_min_bound [LinearOrderedAddCommGroup W] {g : Graph W} {D : Bool}
    {wf : BEdge W → Option W} {n1 : NId} {dp : DPMap W} {q : List (NId × W)}
    (inv : DInv g D wf n1 dp q) (wnn : ∀ e c, wf e = some c → 0 ≤ c)
    (u : NId) (pu : W) (q' : List (NId × W)) (hpop : bq_pop q = some ((u, pu), q')) :
    ∀ pth, gwalk g D wf n1 pth u = true → -pu ≤ wcost wf pth := by
  intro pth hw
  obtain ⟨hmax, _⟩ := bq_pop_eq q (u, pu) q' hpop
  have humem : (u, pu) ∈ q := bq_max_mem q (u, pu) hmax
  obtain ⟨peu, hdpu⟩ := inv.mirror u pu humem
  have h0 := walk_bound inv wnn pth n1 u 0 none 0 hw inv.src le_rfl
  rcases h0 with ⟨y, wy, pey, hy, hdpy, hby⟩ | ⟨wb, peb, hdpb, hnb, hbb⟩
  · obtain ⟨py, hpy⟩ := (mem_qkeys q y).mp hy
    obtain ⟨pey2, hdpy2⟩ := inv.mirror y py hpy
    have hwy : wy = -py :=
      (Prod.ext_iff.mp (Option.some.inj (hdpy.symm.trans hdpy2))).1
    have hple : py ≤ pu := bq_max_is_max q (u, pu) hmax (y, py) hpy
    calc -pu ≤ -py := neg_le_neg hple
      _ = wy := hwy.symm
      _ ≤ 0 + wcost wf pth := hby
      _ = wcost wf pth := zero_add _
  · have hwb : wb = -pu :=
      (Prod.ext_iff.mp (Option.some.inj (hdpb.symm.trans hdpu))).1
    calc -pu = wb := hwb.symm
      _ ≤ 0 + wcost wf pth := hbb
      _ = wcost wf pth := zero_add _

theorem dp_insert_same (dp : DPMap W) (v : NId) (x : W × Option (BEdge W)) :
    dp_insert dp v x v = some x := by simp [dp_insert]

theorem dp_insert_other (dp : DPMap W) (v z : NId) (x : W × Option (BEdge W))
    (h : z ≠ v) : dp_insert dp v x z = dp z := by simp [dp_insert, h]

/-- Effect of one successful (strictly improving or fresh) relaxation on the
sweep invariant. -/
theorem sweep_update [LinearOrderedAddCommGroup W] {g : Graph W} {D : Bool}
    {wf : BEdge W → Option W} {n1 u : NId} {du : W} {dp : DPMap W} {q : List (NId × W)}
    (gwf : ∀ n, ∀ e ∈ gget g n, e.p1 = n ∨ e.p2 = n)
    (wnn : ∀ e c, wf e = some c → 0 ≤ c)
    (hsw : SweepInv g D wf n1 u du dp q)
    (e : BEdge W) (he : e ∈ gget g u)
    (hd : (!D || !e.directed || decide (e.p1 = u)) = true)
    (c : W) (hc : wf e = some c)
    (himpr : ∀ dv pev, dp (other e u) = some (dv, pev) → du + c < dv) :
    SweepInv g D wf n1 u du (dp_insert dp (other e u) (du + c, some e))
      (bq_push q (other e u) (-(du + c))) := by
  obtain ⟨peu, hdpu⟩ := hsw.hu
  have hc0 : 0 ≤ c := wnn e c hc
  have hdu0 : 0 ≤ du := sweepinv_nonneg hsw wnn u du peu hdpu
  have hvu : other e u ≠ u := by
    intro hvequ
    have := himpr du peu (by rwa [hvequ])
    rw [add_lt_iff_neg_left] at this
    exact absurd hc0 (not_le.mpr this)
  have hvn1 : other e u ≠ n1 := by
    intro hveq
    have := himpr 0 none (by rw [hveq, hsw.src])
    exact absurd (add_nonneg hdu0 hc0) (not_le.mpr this)
  have hvq : ∀ dv pev, dp (other e u) = some (dv, pev) → other e u ∈ qkeys q := by
    intro dv pev hdv
    by_contra hnq
    obtain ⟨pthu, hwu, hcu⟩ := hsw.real u du peu hdpu
    have hwalk := gwalk_append_one g D wf pthu n1 u hwu e he hd (by simp [hc])
    have hlow := hsw.lb (other e u) dv pev hdv hnq (pthu ++ [e]) hwalk
    rw [wcost_append_one, hcu] at hlow
    have : (wf e).getD 0 = c := by simp [hc]
    rw [this] at hlow
    exact absurd (himpr dv pev hdv) (not_lt.mpr hlow)
  have hvv : other e (other e u) = u := other_other e u (gwf u e he)
  obtain ⟨pthu, hwu, hcu⟩ := hsw.real u du peu hdpu
  have hwalkv : gwalk g D wf n1 (pthu ++ [e]) (other e u) = true :=
    gwalk_append_one g D wf pthu n1 u hwu e he hd (by simp [hc])
  have hcostv : wcost wf (pthu ++ [e]) = du + c := by
    rw [wcost_append_one, hcu]; simp [hc]
  refine ⟨?_, ?_, ?_, ?_, ?_, ?_, ?_, ?_, ?_, ?_⟩
  · rw [dp_insert_other dp _ n1 _ (fun h => hvn1 h.symm)]
    exact hsw.src
  · intro z p hzp
    rcases (mem_bq_push q (other e u) (-(du + c)) (z, p)).mp hzp with ⟨hq, hne⟩ | heq
    · rw [dp_insert_other dp _ z _ hne]
      exact hsw.mirror z p hq
    · have hz : z = other e u := congrArg Prod.fst heq
      have hp : p = -(du + c) := congrArg Prod.snd heq
      subst hz
      rw [dp_insert_same]
      exact ⟨some e, by rw [hp, neg_neg]⟩
  · exact qkeys_bq_push_nodup q _ _ hsw.qnodup
  · intro z w pe hz
    by_cases hzv : z = other e u
    · subst hzv
      rw [dp_insert_same] at hz
      have hw : du + c = w := congrArg Prod.fst (Option.some.inj hz)
      exact ⟨pthu ++ [e], hwalkv, by rw [hcostv, hw]⟩
    · rw [dp_insert_other dp _ z _ hzv] at hz
      exact hsw.real z w pe hz
  · intro z w e2 hz
    by_cases hzv : z = other e u
    · subst hzv
      rw [dp_insert_same] at hz
      have hw : du + c = w := congrArg Prod.fst (Option.some.inj hz)
      have hpe : (some e : Option (BEdge W)) = some e2 :=
        congrArg Prod.snd (Option.some.inj hz)
      have he2 : e2 = e := (Option.some.inj hpe).symm
      subst he2
      rw [hvv]
      refine ⟨he, hd, rfl, ⟨c, peu, hc, ?_⟩, ?_⟩
      · rw [dp_insert_other dp _ u _ (Ne.symm hvu)]
        rw [hdpu, ← hw]
        have : du + c - c = du := by abel
        rw [this]
      · intro hmem
        rcases (qkeys_bq_push q _ _ u).mp hmem with ⟨hq, _⟩ | hequ
        · exact hsw.unotq hq
        · exact hvu hequ.symm
    · rw [dp_insert_other dp _ z _ hzv] at hz
      obtain ⟨h1, h2, h3, ⟨c2, pu2, hc2, hdp2⟩, h5⟩ := hsw.bp z w e2 hz
      have hp2v : other e2 z ≠ other e u := by
        intro heq2
        rw [heq2] at hdp2 h5
        exact h5 (hvq (w - c2) pu2 hdp2)
      refine ⟨h1, h2, h3, ⟨c2, pu2, hc2, ?_⟩, ?_⟩
      · rw [dp_insert_other dp _ _ _ hp2v]
        exact hdp2
      · intro hmem
        rcases (qkeys_bq_push q _ _ (other e2 z)).mp hmem with ⟨hq, _⟩ | heq2
        · exact h5 hq
        · exact hp2v heq2
  · intro z w hz
    by_cases hzv : z = other e u
    · subst hzv
      rw [dp_insert_same] at hz
      have hpe : (some e : Option (BEdge W)) = none :=
        congrArg Prod.snd (Option.some.inj hz)
      cases hpe
    · rw [dp_insert_other dp _ z _ hzv] at hz
      exact hsw.bpnone z w hz
  · intro z w pe hz hnq pth hpth
    have hzv : z ≠ other e u := by
      intro heq
      exact hnq (heq ▸ (qkeys_bq_push q _ _ (other e u)).mpr (Or.inr rfl))
    rw [dp_insert_other dp _ z _ hzv] at hz
    have hnq' : z ∉ qkeys q := by
      intro hq
      exact hnq ((qkeys_bq_push q _ _ z).mpr (Or.inl ⟨hq, hzv⟩))
    exact hsw.lb z w pe hz hnq' pth hpth
  · intro z w pe hz hnq hzu e3 he3 hd3 c3 hc3
    have hzv : z ≠ other e u := by
      intro heq
      exact hnq (heq ▸ (qkeys_bq_push q _ _ (other e u)).mpr (Or.inr rfl))
    rw [dp_insert_other dp _ z _ hzv] at hz
    have hnq' : z ∉ qkeys q := by
      intro hq
      exact hnq ((qkeys_bq_push q _ _ z).mpr (Or.inl ⟨hq, hzv⟩))
    obtain ⟨w2, pe2, hdp2, hle2⟩ := hsw.relaxedx z w pe hz hnq' hzu e3 he3 hd3 c3 hc3
    by_cases htv : other e3 z = other e u
    · refine ⟨du + c, some e, by rw [htv, dp_insert_same], ?_⟩
      have := himpr w2 pe2 (by rwa [htv] at hdp2)
      exact le_trans (le_of_lt this) hle2
    · exact ⟨w2, pe2, by rw [dp_insert_other dp _ _ _ htv]; exact hdp2, hle2⟩
  · refine ⟨peu, ?_⟩
    rw [dp_insert_other dp _ u _ (Ne.symm hvu)]
    exact hdpu
  · intro hmem
    rcases (qkeys_bq_push q _ _ u).mp hmem with ⟨hq, _⟩ | hequ
    · exact hsw.unotq hq
    · exact hvu hequ.symm

/-- One `relax_edge` call preserves the sweep invariant, only ever lowers
`dp` entries, and leaves the edge's far endpoint with a tentative distance
at most `du + c`. -/
theorem relax_edge_sweep [LinearOrderedAddCommGroup W] {g : Graph W} {D : Bool}
    {wf : BEdge W → Option W} {n1 u : NId} {du : W} {dp : DPMap W} {q : List (NId × W)}
    (gwf : ∀ n, ∀ e ∈ gget g n, e.p1 = n ∨ e.p2 = n)
    (wnn : ∀ e c, wf e = some c → 0 ≤ c)
    (hsw : SweepInv g D wf n1 u du dp q)
    (e : BEdge W) (he : e ∈ gget g u) :
    SweepInv g D wf n1 u du (relax_edge D wf u du (dp, q) e).1
        (relax_edge D wf u du (dp, q) e).2 ∧
    (∀ z w pe, dp z = some (w, pe) →
      ∃ w2 pe2, (relax_edge D wf u du (dp, q) e).1 z = some (w2, pe2) ∧ w2 ≤ w) ∧
    ((!D || !e.directed || decide (e.p1 = u)) = true → ∀ c, wf e = some c →
      ∃ w2 pe2, (relax_edge D wf u du (dp, q) e).1 (other e u) = some (w2, pe2) ∧
        w2 ≤ du + c) := by
  by_cases hd : (!D || !e.directed || decide (e.p1 = u)) = true
  · cases hcw : wf e with
    | none =>
        have hre : relax_edge D wf u du (dp, q) e = (dp, q) := by
          simp [relax_edge, hd, hcw]
        rw [hre]
        refine ⟨hsw, fun z w pe hz => ⟨w, pe, hz, le_refl w⟩, ?_⟩
        intro _ c hc
        exact Option.noConfusion hc
    | some c =>
        cases hdp : dp (other e u) with
        | none =>
            have hre : relax_edge D wf u du (dp, q) e =
                (dp_insert dp (other e u) (du + c, some e),
                  bq_push q (other e u) (-(du + c))) := by
              simp [relax_edge, hd, hcw, hdp]
            have himpr : ∀ dv pev, dp (other e u) = some (dv, pev) → du + c < dv := by
              intro dv pev h
              rw [hdp] at h
              cases h
            rw [hre]
            refine ⟨sweep_update gwf wnn hsw e he hd c hcw himpr, ?_, ?_⟩
            · intro z w pe hz
              by_cases hzv : z = other e u
              · subst hzv
                rw [hdp] at hz
                cases hz
              · exact ⟨w, pe,
                  (dp_insert_other dp (other e u) z (du + c, some e) hzv).trans hz, le_refl w⟩
            · intro _ c' hc'
              have hcc : c = c' := Option.some.inj hc'
              subst hcc
              exact ⟨du + c, some e, dp_insert_same dp _ _, le_refl _⟩
        | some pair =>
            obtain ⟨dv, pev⟩ := pair
            by_cases himp : du + c < dv
            · have hre : relax_edge D wf u du (dp, q) e =
                  (dp_insert dp (other e u) (du + c, some e),
                    bq_push q (other e u) (-(du + c))) := by
                simp [relax_edge, hd, hcw, hdp, himp]
              have himpr : ∀ dv' pev', dp (other e u) = some (dv', pev') → du + c < dv' := by
                intro dv' pev' h
                rw [hdp] at h
                have : dv = dv' := congrArg Prod.fst (Option.some.inj h)
                rw [← this]
                exact himp
              rw [hre]
              refine ⟨sweep_update gwf wnn hsw e he hd c hcw himpr, ?_, ?_⟩
              · intro z w pe hz
                by_cases hzv : z = other e u
                · subst hzv
                  have hw : w = dv := congrArg Prod.fst (Option.some.inj (hz.symm.trans hdp))
                  refine ⟨du + c, some e, dp_insert_same dp _ _, ?_⟩
                  rw [hw]
                  exact le_of_lt himp
                · exact ⟨w, pe,
                    (dp_insert_other dp (other e u) z (du + c, some e) hzv).trans hz, le_refl w⟩
              · intro _ c' hc'
                have hcc : c = c' := Option.some.inj hc'
                subst hcc
                exact ⟨du + c, some e, dp_insert_same dp _ _, le_refl _⟩
            · have hre : relax_edge D wf u du (dp, q) e = (dp, q) := by
                simp [relax_edge, hd, hcw, hdp, himp]
              rw [hre]
              refine ⟨hsw, fun z w pe hz => ⟨w, pe, hz, le_refl w⟩, ?_⟩
              intro _ c' hc'
              have hcc : c = c' := Option.some.inj hc'
              subst hcc
              exact ⟨dv, pev, hdp, le_of_not_lt himp⟩
  · have hre : relax_edge D wf u du (dp, q) e = (dp, q) := by
      rw [Bool.not_eq_true] at hd
      simp [relax_edge, hd]
    rw [hre]
    exact ⟨hsw, fun z w pe hz => ⟨w, pe, hz, le_refl w⟩, fun hdt => absurd hdt hd⟩

/-- Folding `relax_edge` over (a sublist of) the incidence list of `u`. -/
theorem relax_fold [LinearOrderedAddCommGroup W] {g : Graph W} {D : Bool}
    {wf : BEdge W → Option W} {n1 u : NId} {du : W}
    (gwf : ∀ n, ∀ e ∈ gget g n, e.p1 = n ∨ e.p2 = n)
    (wnn : ∀ e c, wf e = some c → 0 ≤ c) :
    ∀ (es : List (BEdge W)) (dp : DPMap W) (q : List (NId × W)),
      (∀ e ∈ es, e ∈ gget g u) → SweepInv g D wf n1 u du dp q →
      SweepInv g D wf n1 u du (es.foldl (relax_edge D wf u du) (dp, q)).1
          (es.foldl (relax_edge D wf u du) (dp, q)).2 ∧
      (∀ z w pe, dp z = some (w, pe) →
        ∃ w2 pe2, (es.foldl (relax_edge D wf u du) (dp, q)).1 z = some (w2, pe2) ∧ w2 ≤ w) ∧
      (∀ e ∈ es, (!D || !e.directed || decide (e.p1 = u)) = true → ∀ c, wf e = some c →
        ∃ w2 pe2, (es.foldl (relax_edge D wf u du) (dp, q)).1 (other e u) = some (w2, pe2) ∧
          w2 ≤ du + c) := by
  intro es
  induction es with
  | nil =>
      intro dp q _ hsw
      exact ⟨hsw, fun z w pe hz => ⟨w, pe, hz, le_refl w⟩,
        fun e he => absurd he (List.not_mem_nil e)⟩
  | cons e0 rest ih =>
      intro dp q hsub hsw
      have he0 : e0 ∈ gget g u := hsub e0 (List.mem_cons_self e0 rest)
      obtain ⟨hsw1, hdec1, hrel1⟩ := relax_edge_sweep gwf wnn hsw e0 he0
      obtain ⟨hsw2, hdec2, hrel2⟩ :=
        ih (relax_edge D wf u du (dp, q) e0).1 (relax_edge D wf u du (dp, q) e0).2
          (fun e he => hsub e (List.mem_cons_of_mem e0 he)) hsw1
      rw [List.foldl_cons]
      refine ⟨hsw2, ?_, ?_⟩
      · intro z w pe hz
        obtain ⟨w1, pe1, h1, hle1⟩ := hdec1 z w pe hz
        obtain ⟨w2, pe2, h2, hle2⟩ := hdec2 z w1 pe1 h1
        exact ⟨w2, pe2, h2, le_trans hle2 hle1⟩
      · intro e he hd c hc
        rcases List.mem_cons.mp he with h | h
        · subst h
          obtain ⟨w1, pe1, h1, hle1⟩ := hrel1 hd c hc
          obtain ⟨w2, pe2, h2, hle2⟩ := hdec2 _ w1 pe1 h1
          exact ⟨w2, pe2, h2, le_trans hle2 hle1⟩
        · exact hrel2 e h hd c hc

/-- Popping the maximum-priority entry (minimum tentative distance) turns the
loop invariant into the sweep invariant for the popped node. -/
theorem pop_seed [LinearOrderedAddCommGroup W] {g : Graph W} {D : Bool}
    {wf : BEdge W → Option W} {n1 : NId} {dp : DPMap W} {q : List (NId × W)}
    (inv : DInv g D wf n1 dp q) (wnn : ∀ e c, wf e = some c → 0 ≤ c)
    (u : NId) (pu : W) (q' : List (NId × W)) (hpop : bq_pop q = some ((u, pu), q'))
    (du : W) (peu : Option (BEdge W)) (hdpu : dp u = some (du, peu)) :
    SweepInv g D wf n1 u du dp q' := by
  obtain ⟨hmax, hq'⟩ := bq_pop_eq q (u, pu) q' hpop
  have humem : (u, pu) ∈ q := bq_max_mem q (u, pu) hmax
  obtain ⟨pe0, hdp0⟩ := inv.mirror u pu humem
  have hdu : du = -pu := congrArg Prod.fst (Option.some.inj (hdpu.symm.trans hdp0))
  subst hq'
  have hvq : ∀ v, v ∉ qkeys (q.erase (u, pu)) → v ≠ u → v ∉ qkeys q := by
    intro v hv hvu hmem
    exact hv (qkeys_erase_mem q (u, pu) v hmem hvu)
  refine ⟨inv.src, ?_, qkeys_erase_nodup q (u, pu) inv.qnodup, inv.real, ?_,
    inv.bpnone, ?_, ?_, ⟨peu, hdpu⟩,
    qkeys_erase_not_mem q (u, pu) inv.qnodup humem⟩
  · intro v p hvp
    exact inv.mirror v p (List.mem_of_mem_erase hvp)
  · intro v w e h
    obtain ⟨h1, h2, h3, h4, h5⟩ := inv.bp v w e h
    exact ⟨h1, h2, h3, h4, fun hmem => h5 (qkeys_erase_subset q (u, pu) _ hmem)⟩
  · intro v w pe h hq pth hw
    by_cases hvu : v = u
    · subst hvu
      have hwdu : w = du := congrArg Prod.fst (Option.some.inj (h.symm.trans hdpu))
      rw [hwdu, hdu]
      exact pop_min_bound inv wnn v pu _ hpop pth hw
    · exact inv.lb v w pe h (hvq v hq hvu) pth hw
  · intro v w pe h hq hvu e he hd c hc
    exact inv.relaxed v w pe h (hvq v hq hvu) e he hd c hc

/-- Once every incident edge of the popped node has been relaxed, the sweep
invariant collapses back into the loop invariant. -/
theorem sweep_restores_inv [LinearOrderedAddCommGroup W] {g : Graph W} {D : Bool}
    {wf : BEdge W → Option W} {n1 u : NId} {du : W} {dp : DPMap W} {q : List (NId × W)}
    (hsw : SweepInv g D wf n1 u du dp q)
    (hrel : ∀ e ∈ gget g u, (!D || !e.directed || decide (e.p1 = u)) = true →
      ∀ c, wf e = some c →
        ∃ w2 pe2, dp (other e u) = some (w2, pe2) ∧ w2 ≤ du + c) :
    DInv g D wf n1 dp q := by
  refine ⟨hsw.src, hsw.mirror, hsw.qnodup, hsw.real, hsw.bp, hsw.bpnone, hsw.lb, ?_⟩
  intro v w pe h hq e he hd c hc
  by_cases hvu : v = u
  · subst hvu
    obtain ⟨peu, hdpu⟩ := hsw.hu
    have hwdu : w = du := congrArg Prod.fst (Option.some.inj (h.symm.trans hdpu))
    obtain ⟨w2, pe2, h2, hle⟩ := hrel e he hd c hc
    exact ⟨w2, pe2, h2, by rw [hwdu]; exact hle⟩
  · exact hsw.relaxedx v w pe h hq hvu e he hd c hc

/-- The initial state of `pathfind` satisfies the loop invariant. -/
theorem dinv_init [LinearOrderedAddCommGroup W] (g : Graph W) (D : Bool)
    (wf : BEdge W → Option W) (n1 : NId) :
    DInv g D wf n1 (dp_insert (fun _ => none) n1 (0, none)) [(n1, 0)] := by
  have hdp : ∀ (v : NId) (w : W) (pe : Option (BEdge W)),
      dp_insert (fun _ => none) n1 ((0 : W), none) v = some (w, pe) →
      v = n1 ∧ w = 0 ∧ pe = none := by
    intro v w pe h
    by_cases hv : v = n1
    · subst hv
      rw [dp_insert_same] at h
      obtain ⟨h1, h2⟩ := Prod.ext_iff.mp (Option.some.inj h)
      exact ⟨rfl, h1.symm, h2.symm⟩
    · rw [dp_insert_other _ _ _ _ hv] at h
      exact Option.noConfusion h
  refine ⟨dp_insert_same _ _ _, ?_, by simp [qkeys], ?_, ?_, ?_, ?_, ?_⟩
  · intro v p hvp
    rcases List.mem_singleton.mp hvp with h
    have h1 : v = n1 := congrArg Prod.fst h
    have h2 : p = (0 : W) := congrArg Prod.snd h
    subst h1
    exact ⟨none, by rw [h2, neg_zero]; exact dp_insert_same _ _ _⟩
  · intro v w pe h
    obtain ⟨h1, h2, _⟩ := hdp v w pe h
    subst h1
    refine ⟨[], ?_, by rw [h2]; rfl⟩
    rw [gwalk_nil_iff]
  · intro v w e h
    obtain ⟨_, _, h3⟩ := hdp v w (some e) h
    exact Option.noConfusion h3
  · intro v w h
    exact (hdp v w none h).1
  · intro v w pe h hq
    obtain ⟨h1, _, _⟩ := hdp v w pe h
    subst h1
    exact absurd (by simp [qkeys]) hq
  · intro v w pe h hq
    obtain ⟨h1, _, _⟩ := hdp v w pe h
    subst h1
    exact absurd (by simp [qkeys]) hq

/-- Soundness of backwards path reconstruction: a successful `recon` from a
discovered node produces a walk from the source realising the recorded
tentative distance. -/
theorem recon_sound [LinearOrderedAddCommGroup W] {g : Graph W} {D : Bool}
    {wf : BEdge W → Option W} {n1 : NId} {dp : DPMap W} {q : List (NId × W)}
    (inv : DInv g D wf n1 dp q) :
    ∀ (fuel : Nat) (v : NId) (w : W) (pe : Option (BEdge W)) (acc res : List (BEdge W)),
      dp v = some (w, pe) → recon dp fuel v acc = some res →
      ∃ chain, res = chain ++ acc ∧ gwalk g D wf n1 chain v = true ∧
        wcost wf chain = w := by
  intro fuel
  induction fuel with
  | zero => intro v w pe acc res _ hr; exact Option.noConfusion hr
  | succ fuel ih =>
      intro v w pe acc res hdp hr
      unfold recon at hr
      rw [hdp] at hr
      cases pe with
      | none =>
          have hres : res = acc := (Option.some.inj hr).symm
          have hv : v = n1 := inv.bpnone v w hdp
          subst hv
          have hw : w = 0 :=
            congrArg Prod.fst (Option.some.inj (hdp.symm.trans inv.src))
          refine ⟨[], by rw [hres]; rfl, ?_, by rw [hw]; rfl⟩
          rw [gwalk_nil_iff]
      | some e =>
          obtain ⟨hmem, hdir, hoo, ⟨c, pu, hc, hdp2⟩, _⟩ := inv.bp v w e hdp
          obtain ⟨chain, hres, hwk, hcost⟩ :=
            ih (other e v) (w - c) pu (e :: acc) res hdp2 hr
          refine ⟨chain ++ [e], ?_, ?_, ?_⟩
          · rw [hres, List.append_cons]
          · have := gwalk_append_one g D wf chain n1 (other e v) hwk e hmem hdir
              (by rw [hc]; rfl)
            rwa [hoo] at this
          · rw [wcost_append_one, hcost, hc]
            show w - c + c = w
            exact sub_add_cancel w c
/-- Main loop correctness: from a state satisfying the loop invariant, a
successful `pathfind_go` returns a direction-respecting walk from the source
to the target of minimum cost among all such walks. -/
theorem pathfind_go_opt [LinearOrderedAddCommGroup W] {g : Graph W} {D : Bool}
    {wf : BEdge W → Option W} {n1 n2 : NId}
    (gwf : ∀ n, ∀ e ∈ gget g n, e.p1 = n ∨ e.p2 = n)
    (wnn : ∀ e c, wf e = some c → 0 ≤ c) :
    ∀ (fuel : Nat) (dp : DPMap W) (q : List (NId × W)) (res : List (BEdge W)),
      DInv g D wf n1 dp q →
      pathfind_go D g wf n2 fuel (dp, q) = some res →
      gwalk g D wf n1 res n2 = true ∧
      ∀ pth, gwalk g D wf n1 pth n2 = true → wcost wf res ≤ wcost wf pth := by
  intro fuel
  induction fuel with
  | zero => intro dp q res _ h; exact Option.noConfusion h
  | succ fuel ih =>
      intro dp q res inv h
      unfold pathfind_go at h
      split at h
      · exact Option.noConfusion h
      · rename_i u pu q' hpop
        have hpop2 : bq_pop q = some ((u, pu), q') := hpop
        by_cases hun : u = n2
        · rw [if_pos hun] at h
          obtain ⟨hmax, _⟩ := bq_pop_eq q (u, pu) q' hpop2
          have humem : (u, pu) ∈ q := bq_max_mem q (u, pu) hmax
          obtain ⟨peu, hdpu⟩ := inv.mirror u pu humem
          obtain ⟨chain, hres, hwk, hcost⟩ :=
            recon_sound inv (fuel + 1) u (-pu) peu [] res hdpu h
          have hresc : res = chain := by rw [hres, List.append_nil]
          constructor
          · rw [hresc]
            rwa [hun] at hwk
          · intro pth hw
            rw [hresc, hcost]
            exact pop_min_bound inv wnn u pu q' hpop2 pth (by rw [hun]; exact hw)
        · rw [if_neg hun] at h
          split at h
          · exact Option.noConfusion h
          · rename_i du peu hdpu
            have hdpu2 : dp u = some (du, peu) := hdpu
            have hsw0 := pop_seed inv wnn u pu q' hpop2 du peu hdpu2
            obtain ⟨hswF, _, hrelF⟩ :=
              relax_fold gwf wnn (gget g u) dp q' (fun e he => he) hsw0
            exact ih _ _ res (sweep_restores_inv hswF hrelF) h

/-- **C7.** Monotonicity of `pathfind` in the weight function: over a graph
whose incidence lists are consistent (every stored edge is incident to its
key) and for nonnegative weight functions with `wf ≤ wf'` pointwise (every
edge allowed under `wf'` is allowed under `wf` at no greater weight), if
both runs return a path then the `wf`-cost of the first is at most the
`wf'`-cost of the second: each returned path is cost-minimal among all
direction-respecting walks under its own weight function, and every
`wf'`-walk is a `wf`-walk of no greater cost. -/
theorem c7_pathfind_monotone [LinearOrderedAddCommGroup W] {g : Graph W} {D : Bool}
    {wf wf' : BEdge W → Option W} {n1 n2 : NId} {fuel fuel' : Nat}
    {p p' : List (BEdge W)}
    (gwf : ∀ n, ∀ e ∈ gget g n, e.p1 = n ∨ e.p2 = n)
    (wnn : ∀ e c, wf e = some c → 0 ≤ c)
    (wnn' : ∀ e c, wf' e = some c → 0 ≤ c)
    (hle : ∀ e c', wf' e = some c' → ∃ c, wf e = some c ∧ c ≤ c')
    (hp : pathfind D g wf n1 n2 fuel = some p)
    (hp' : pathfind D g wf' n1 n2 fuel' = some p') :
    wcost wf p ≤ wcost wf' p' := by
  have hp2 : pathfind_go D g wf n2 fuel
      (dp_insert (fun _ => none) n1 ((0 : W), none), [(n1, (0 : W))]) = some p := hp
  have hp2x : pathfind_go D g wf' n2 fuel'
      (dp_insert (fun _ => none) n1 ((0 : W), none), [(n1, (0 : W))]) = some p' := hp'
  obtain ⟨hwk, hopt⟩ :=
    pathfind_go_opt gwf wnn fuel _ _ p (dinv_init g D wf n1) hp2
  obtain ⟨hwkx, _⟩ :=
    pathfind_go_opt gwf wnn' fuel' _ _ p' (dinv_init g D wf' n1) hp2x
  have hwk2 : gwalk g D wf n1 p' n2 = true := gwalk_mono g D wf wf' hle p' n1 n2 hwkx
  exact le_trans (hopt p' hwk2) (wcost_mono g D wf wf' hle p' n1 n2 hwkx)

def c7Edge : BEdge ℤ := ⟨"A", "B", none, false, 1, 0⟩

def c7Graph : Graph ℤ := [("A", [c7Edge])]

def c7wf : BEdge ℤ → Option ℤ := fun _ => some 1

def c7wf' : BEdge ℤ → Option ℤ := fun _ => some 2

theorem c7_pathfind_monotone_witness :
    wcost c7wf [c7Edge] ≤ wcost c7wf' [c7Edge] := by
  have hgwf : ∀ n, ∀ e ∈ gget c7Graph n, e.p1 = n ∨ e.p2 = n := by
    intro n e he
    by_cases h : ("A" : NId) = n
    · have hg : gget c7Graph n = [c7Edge] := by simp [c7Graph, gget, h]
      rw [hg] at he
      rw [List.mem_singleton.mp he, ← h]
      left
      rfl
    · have hg : gget c7Graph n = [] := by simp [c7Graph, gget, h]
      rw [hg] at he
      exact absurd he (List.not_mem_nil e)
  have hwnn : ∀ (e : BEdge ℤ) (c : ℤ), c7wf e = some c → 0 ≤ c := by
    intro e c h
    have h2 : some (1 : ℤ) = some c := h
    rw [← Option.some.inj h2]
    decide
  have hwnn2 : ∀ (e : BEdge ℤ) (c : ℤ), c7wf' e = some c → 0 ≤ c := by
    intro e c h
    have h2 : some (2 : ℤ) = some c := h
    rw [← Option.some.inj h2]
    decide
  have hle : ∀ (e : BEdge ℤ) (c : ℤ), c7wf' e = some c →
      ∃ d, c7wf e = some d ∧ d ≤ c := by
    intro e c h
    have h2 : some (2 : ℤ) = some c := h
    exact ⟨1, rfl, by rw [← Option.some.inj h2]; decide⟩
  have hp : pathfind false c7Graph c7wf "A" "B" 3 = some [c7Edge] := by decide
  have hp2 : pathfind false c7Graph c7wf' "A" "B" 3 = some [c7Edge] := by decide
  exact c7_pathfind_monotone hgwf hwnn hwnn2 hle hp hp2

end FP
